import Mathlib

/-!
Shallow embedding of `src/main.py` (PDF → mock-test MCQ extractor) and proofs
of the specification claims about it.

Modelling conventions:
* Python strings are `List Char`; Python floats are `ℚ` (all coordinate
  arithmetic in the source is comparisons, sums and divisions, exact on ℚ).
* Python regexes are hand-compiled to deterministic functions.  Where the
  regex engine would backtrack, the functions implement the same match
  relation; each compilation comment records the argument.
* Character classes `\s`, `\d`, `\w` are modelled on their ASCII subsets
  (the only characters the source's patterns can meet in the relevant
  positions), matching Lean's ASCII-only `Char.isDigit`/`Char.toLower`.
-/

namespace PdfMock

/-- Text of a line, a Python string, as a list of characters. -/
abbrev Str := List Char

/-- Python regex `\s` (ASCII whitespace, as used by `str.strip()` too). -/
def isWsChar (c : Char) : Bool :=
  c = ' ' || c = '\t' || c = '\n' || c = '\r' || c = '\x0b' || c = '\x0c'

/-- Python regex word character for `\b`: ASCII `[A-Za-z0-9_]`. -/
def isWordChar (c : Char) : Bool := c.isAlphanum || c = '_'

/-- Python `str.strip()`. -/
def strip (l : Str) : Str :=
  ((l.dropWhile isWsChar).reverse.dropWhile isWsChar).reverse

/-- Consume `\s*`. -/
def skipWs (l : Str) : Str := l.dropWhile isWsChar

/-- Match a literal pattern (given in lowercase) case-insensitively against the
front of the input; return the remainder on success. -/
def matchCI : Str → Str → Option Str
  | [], l => some l
  | _ :: _, [] => none
  | p :: ps, c :: cs => if c.toLower = p then matchCI ps cs else none

/-- Stable insertion of `x` into a list sorted by `le`: `x` goes before the
first element it compares `le` to, so elements equal to `x` keep their
original relative order (the stability Python's `sorted` guarantees). -/
def insertSorted (le : α → α → Bool) (x : α) : List α → List α
  | [] => [x]
  | h :: t => if le x h then x :: h :: t else h :: insertSorted le x t

/-- Stable ascending sort (insertion sort), modelling Python `sorted`. -/
def sortedBy (le : α → α → Bool) : List α → List α
  | [] => []
  | x :: xs => insertSorted le x (sortedBy le xs)

/-- Numeric value of a digit string, as Python `int` after `lstrip("0")`
(leading zeros ignored; empty string treated as 0 via the source's
`or "0"` fallback). -/
def digitsVal (l : Str) : Nat :=
  l.foldl (fun acc c => acc * 10 + (c.toNat - 48)) 0

/-- Compiled `_is_valid_question_start`: `int(num_str.lstrip("0") or "0") <= 200`,
with `ValueError` (a non-digit in the string) giving `True`. -/
def isValidQuestionStart (l : Str) : Bool :=
  if l.all Char.isDigit then digitsVal l ≤ 200 else true

/-- Greedy capture of `0?\d{1,3}` plus the remainder.

Regex semantics folded in: the atom prefers to let `0?` consume a leading `0`
(possible only when at least one digit follows) and then takes up to three
further digits greedily, so the capture is the first `min(4, run)` digits when
the text starts `0` followed by a digit, else the first `min(3, run)` digits.
At every use site the atom is followed only by optional pieces and either
`(.*)$` or a separator class that contains no digit, so backtracking to a
shorter capture can never turn a failure into a success (the freed character
is always a digit). -/
def numCapture (l : Str) : Option (Str × Str) :=
  let ds := l.takeWhile Char.isDigit
  if ds = [] then none
  else
    let n := if ds.headD ' ' = '0' ∧ 2 ≤ ds.length then 4 else 3
    let cap := ds.take n
    some (cap, l.drop cap.length)

/-- Separator class `[.):–\-]` of QUESTION_PREFIXED / QUESTION_BARE_NUM. -/
def isSepDash (c : Char) : Bool :=
  c = '.' || c = ')' || c = ':' || c = '–' || c = '-'

/-- Separator class `[.):\-]` of QNUM_ONLY / QUESTION_OCR_SPACED (no en-dash). -/
def isSepPlain (c : Char) : Bool :=
  c = '.' || c = ')' || c = ':' || c = '-'

/-- Consume an optional single character satisfying `p` (greedy; at each use
site failing to consume can never rescue a failed match). -/
def optChar (p : Char → Bool) (l : Str) : Str :=
  match l with
  | c :: cs => if p c then cs else l
  | [] => []

/-- Compiled prefix `(?:(?:Question|Que)\.?\s+|Q\.?\s*)` of
QUESTION_PREFIXED_RE (case-insensitive).  The `Question`/`Que` literals each
need `\.?` then mandatory whitespace; the short branch `Q\.?\s*` needs none.
All three alternatives are tried in the regex's order. -/
def prefixedQPrefix (l : Str) : Option Str :=
  let long (lit : Str) : Option Str :=
    (matchCI lit l).bind fun r =>
      let r := optChar (· = '.') r
      match r with
      | c :: cs => if isWsChar c then some (skipWs cs) else none
      | [] => none
  let short : Option Str :=
    (matchCI ['q'] l).map fun r => skipWs (optChar (· = '.') r)
  (long "question".toList).orElse fun _ =>
    (long "que".toList).orElse fun _ => short

/-- Compiled QUESTION_PREFIXED_RE:
`^\s*(?:(?:Question|Que)\.?\s+|Q\.?\s*)\(?(0?\d{1,3})\)?\s*[.):–\-]?\s*(.*)$`,
case-insensitive.  Returns (number capture, group-2 remainder).
After the number everything is optional, so greedy consumption is exact. -/
def qPrefixedMatch (l : Str) : Option (Str × Str) :=
  (prefixedQPrefix (skipWs l)).bind fun r =>
    let r := optChar (· = '(') r
    (numCapture r).bind fun p =>
      let r2 := optChar (· = ')') p.2
      let r3 := optChar isSepDash (skipWs r2)
      some (p.1, skipWs r3)

/-- Compiled QUESTION_BARE_NUM_RE:
`^\s*\(?(0?\d{1,3})\)?\s*[.):–\-]\s*(.*)$` — the separator is mandatory.
The only live backtracking point: a `)` after the number may be taken by
`\)?` or serve as the separator itself; the `\)?`-first (greedy) attempt is
tried first and the fallback only when it fails. -/
def qBareNumMatch (l : Str) : Option (Str × Str) :=
  let l := skipWs l
  let l := optChar (· = '(') l
  (numCapture l).bind fun p =>
    let attempt (s : Str) : Option Str :=
      match skipWs s with
      | c :: cs => if isSepDash c then some (skipWs cs) else none
      | [] => none
    let rest :=
      match p.2 with
      | ')' :: r3 => (attempt r3).orElse fun _ => attempt p.2
      | _ => attempt p.2
    rest.map fun b => (p.1, b)

/-- Spaced-digit repetitions for QUESTION_OCR_SPACED_RE: starting after a first
digit, the checkpoints after 1, 2 and 3 further `\s+\d` repetitions, each as
(captured raw text so far, remainder).  Each inner `\s+` is a maximal
whitespace run (shrinking it leaves whitespace where a digit is required). -/
def ocrSegs : Nat → Str → Str → List (Str × Str)
  | 0, _, _ => []
  | Nat.succ k, acc, rest =>
    let ws := rest.takeWhile isWsChar
    if ws = [] then []
    else
      match rest.dropWhile isWsChar with
      | c :: cs =>
        if c.isDigit then
          let acc2 := acc ++ ws ++ [c]
          (acc2, cs) :: ocrSegs k acc2 cs
        else []
      | [] => []

/-- Compiled QUESTION_OCR_SPACED_RE:
`^\s*(\d(?:\s+\d){1,3})\s*[.):\-]?\s*(.+)$`.
The repetition count is greedy (3 → 1); a candidate is accepted when after
`\s*[.):\-]?\s*` at least one character remains (the mandatory body `(.+)`).
Returns (raw spaced-digit capture, body). -/
def qOcrSpacedMatch (l : Str) : Option (Str × Str) :=
  match skipWs l with
  | c :: cs =>
    if c.isDigit then
      let segs := ocrSegs 3 [c] cs
      let try1 (p : Str × Str) : Option (Str × Str) :=
        let r := skipWs (optChar isSepPlain (skipWs p.2))
        if r = [] then none else some (p.1, r)
      (segs.reverse.filterMap try1).head?
    else none
  | [] => none

/-- Candidate captures, in the regex engine's backtracking order, for the
roman-numeral core `X{0,3}(?:IX|IV|V?I{0,3})` (case-insensitive), each as
(raw capture, remainder).  `X{0,3}` is greedy (3 → 0 leading x's); within each
choice the alternatives run IX, IV, then `V?I{0,3}` with the `V` and the
longer `I` runs preferred. -/
def romanCoreCands (l : Str) : List (Str × Str) :=
  let isC (ch : Char) (c : Char) : Bool := c.toLower = ch
  let xs := (l.takeWhile (isC 'x')).length
  let afterX (k : Nat) : List (Str × Str) :=
    let pre := l.take k
    let rest := l.drop k
    let ixiv :=
      (match rest with
       | a :: b :: cs =>
         (if isC 'i' a ∧ isC 'x' b then [(pre ++ [a, b], cs)] else []) ++
         (if isC 'i' a ∧ isC 'v' b then [(pre ++ [a, b], cs)] else [])
       | _ => [])
    let vi :=
      let withV : List (Str × Str) :=
        match rest with
        | v :: vs =>
          if isC 'v' v then
            let is := (vs.takeWhile (isC 'i')).length
            ((List.range (min 3 is + 1)).reverse).map fun i =>
              (pre ++ [v] ++ vs.take i, vs.drop i)
          else []
        | [] => []
      let noV : List (Str × Str) :=
        let is := (rest.takeWhile (isC 'i')).length
        ((List.range (min 3 is + 1)).reverse).map fun i =>
          (pre ++ rest.take i, rest.drop i)
      withV ++ noV
    ixiv ++ vi
  (((List.range (min 3 xs + 1)).reverse).map afterX).flatten

/-- Compiled QUESTION_ROMAN_RE:
`^\s*(X{0,3}(?:IX|IV|V?I{0,3}))(?!\()\s*[.:]\s*(.*)$`, case-insensitive.
First candidate whose continuation (not followed by `(`, then whitespace,
then a mandatory `.` or `:`) succeeds wins. -/
def qRomanMatch (l : Str) : Option (Str × Str) :=
  let l := skipWs l
  let cont (p : Str × Str) : Option (Str × Str) :=
    match p.2 with
    | '(' :: _ => none
    | r =>
      match skipWs r with
      | c :: cs => if c = '.' ∨ c = ':' then some (p.1, skipWs cs) else none
      | [] => none
  ((romanCoreCands l).filterMap cont).head?

/-- Compiled QNUM_ROMAN_ONLY_RE:
`^\s*(X{0,3}(?:IX|IV|V?I{0,3}))(?!\()\s*[.:]?\s*$`, case-insensitive. -/
def qnumRomanOnlyMatch (l : Str) : Option Str :=
  let l := skipWs l
  let cont (p : Str × Str) : Option Str :=
    match p.2 with
    | '(' :: _ => none
    | r =>
      let r2 := skipWs (optChar (fun c => c = '.' ∨ c = ':') (skipWs r))
      if r2 = [] then some p.1 else none
  ((romanCoreCands l).filterMap cont).head?

/-- Compiled QNUM_ONLY_RE:
`^\s*(?:(?:Question|Que)\.?\s+|Q\.\s*)\(?(0?\d{1,3})\)?\s*[.):\-]?\s*$`,
case-insensitive.  Unlike QUESTION_PREFIXED, the bare-`Q` branch requires the
dot.  End-anchored: after the capture, `\)?\s*[.):\-]?\s*` must reach the end
(greedy consumption is exact here: whenever skipping the optional `)`
would let the tail match, taking it does too). -/
def qnumOnlyMatch (l : Str) : Option Str :=
  let long (lit : Str) (s : Str) : Option Str :=
    (matchCI lit s).bind fun r =>
      let r := optChar (· = '.') r
      match r with
      | c :: cs => if isWsChar c then some (skipWs cs) else none
      | [] => none
  let short (s : Str) : Option Str :=
    (matchCI ['q'] s).bind fun r =>
      match r with
      | '.' :: cs => some (skipWs cs)
      | _ => none
  let s := skipWs l
  let pre := (long "question".toList s).orElse fun _ =>
    (long "que".toList s).orElse fun _ => short s
  pre.bind fun r =>
    let r := optChar (· = '(') r
    (numCapture r).bind fun p =>
      let r2 := optChar (· = ')') p.2
      let r3 := skipWs (optChar isSepPlain (skipWs r2))
      if r3 = [] then some p.1 else none

/-- Compiled OPTION_LETTER_RE:
`^\s*[\(\[]?([A-Da-d])[\)\].:]\s*[-:]?\s*(.*)$`.
Returns (letter as written, group-2 remainder). -/
def optionLetterMatch (l : Str) : Option (Char × Str) :=
  let l := skipWs l
  let l := optChar (fun c => c = '(' ∨ c = '[') l
  match l with
  | c :: cs =>
    if ('A' ≤ c ∧ c ≤ 'D') ∨ ('a' ≤ c ∧ c ≤ 'd') then
      match cs with
      | k :: ks =>
        if k = ')' ∨ k = ']' ∨ k = '.' ∨ k = ':' then
          some (c, skipWs (optChar (fun x => x = '-' ∨ x = ':') (skipWs ks)))
        else none
      | [] => none
    else none
  | [] => none

/-- Candidate captures for the roman-option core `i{1,3}|iv|v?i{0,3}`
(case-insensitive), in backtracking order. -/
def romanOptCands (l : Str) : List (Str × Str) :=
  let isC (ch : Char) (c : Char) : Bool := c.toLower = ch
  let is := (l.takeWhile (isC 'i')).length
  let b1 : List (Str × Str) :=
    ((List.range (min 3 is)).reverse).map fun j =>
      (l.take (j + 1), l.drop (j + 1))
  let b2 : List (Str × Str) :=
    match l with
    | a :: b :: cs => if isC 'i' a ∧ isC 'v' b then [(l.take 2, cs)] else []
    | _ => []
  let b3 : List (Str × Str) :=
    let withV : List (Str × Str) :=
      match l with
      | v :: vs =>
        if isC 'v' v then
          let is2 := (vs.takeWhile (isC 'i')).length
          ((List.range (min 3 is2 + 1)).reverse).map fun i =>
            (l.take (i + 1), vs.drop i)
        else []
      | [] => []
    let noV : List (Str × Str) :=
      ((List.range (min 3 is + 1)).reverse).map fun i =>
        (l.take i, l.drop i)
    withV ++ noV
  b1 ++ b2 ++ b3

/-- Compiled OPTION_ROMAN_RE: `^\s*\((i{1,3}|iv|v?i{0,3})\)\s*(.+)$`,
case-insensitive; the body is mandatory. -/
def optionRomanMatch (l : Str) : Option (Str × Str) :=
  match skipWs l with
  | '(' :: cs =>
    let cont (p : Str × Str) : Option (Str × Str) :=
      match p.2 with
      | ')' :: r =>
        let b := skipWs r
        if b = [] then none else some (p.1, b)
      | _ => none
    ((romanOptCands cs).filterMap cont).head?
  | _ => none

/-- Compiled OPTION_NUMERIC_RE: `^\s*([1-4])[).]\s+(.+)$` — whitespace after
the delimiter and a body are both mandatory. -/
def optionNumericMatch (l : Str) : Option (Char × Str) :=
  match skipWs l with
  | c :: k :: cs =>
    if ('1' ≤ c ∧ c ≤ '4') ∧ (k = ')' ∨ k = '.') then
      match cs with
      | w :: ws =>
        if isWsChar w then
          let b := skipWs ws
          if b = [] then none else some (c, b)
        else none
      | [] => none
    else none
  | _ => none

/-- Compiled OPTION_BULLET_RE: `^\s*[•\*\-–]\s+(.+)$`.  On the stripped lines
the parser feeds it, the body never consists of the trailing whitespace the
regex could otherwise back into, so the body is the text after the maximal
whitespace run. -/
def optionBulletMatch (l : Str) : Option Str :=
  match skipWs l with
  | c :: cs =>
    if c = '•' ∨ c = '*' ∨ c = '-' ∨ c = '–' then
      match cs with
      | w :: ws =>
        if isWsChar w then
          let b := skipWs ws
          if b = [] then none else some b
        else none
      | [] => none
    else none
  | _ => none

/-- Word boundary `\b` directly after a word character: next char absent or
not a word character. -/
def bdyAfter (l : Str) : Bool :=
  match l with
  | [] => true
  | c :: _ => ¬ isWordChar c

/-- Optional final `s?` of a STOP branch followed by `\b`.  With the `s`
consumed the boundary must hold after it; without, the boundary before a
literal `s` never holds (both neighbours are word characters), so the
disjunction is exact. -/
def optSBdy (l : Str) : Bool :=
  match l with
  | [] => true
  | c :: cs => if c.toLower = 's' then bdyAfter cs else bdyAfter l

/-- Compiled STOP_PATTERNS (prefix match, case-insensitive):
`^\s*(?:answers?\s*(?:[&]|and)\s*solutions?|answer\s*key|answer\s*sheet|solutions?|explanations?|hints?)\b`. -/
def stopMatch (l : Str) : Bool :=
  let s := skipWs l
  let andSol (r : Str) : Bool :=
    let r1 := skipWs r
    let conj : Option Str :=
      match r1 with
      | '&' :: t => some t
      | _ => matchCI "and".toList r1
    match conj with
    | some r2 =>
      match matchCI "solution".toList (skipWs r2) with
      | some r3 => optSBdy r3
      | none => false
    | none => false
  let b1 :=
    match matchCI "answer".toList s with
    | some r =>
      (match r with
       | c :: cs => (c.toLower = 's' && andSol cs)
       | [] => false) ||
      andSol r
    | none => false
  let lit2 (a b : String) : Bool :=
    match matchCI a.toList s with
    | some r =>
      match matchCI b.toList (skipWs r) with
      | some r2 => bdyAfter r2
      | none => false
    | none => false
  let simpleS (a : String) : Bool :=
    match matchCI a.toList s with
    | some r => optSBdy r
    | none => false
  b1 || lit2 "answer" "key" || lit2 "answer" "sheet" ||
    simpleS "solution" || simpleS "explanation" || simpleS "hint"

/-- Compiled search for `\bsolution\s*:` (case-insensitive) anywhere in the
line.  The scan carries whether the previous character was a word character
(for the `\b`). -/
def containsSolutionColonAux : Bool → Str → Bool
  | _, [] => false
  | prevWord, l@(c :: cs) =>
    (¬ prevWord &&
      (match matchCI "solution".toList l with
       | some r =>
         (match skipWs r with
          | ':' :: _ => true
          | _ => false)
       | none => false)) ||
    containsSolutionColonAux (isWordChar c) cs

def containsSolutionColon (l : Str) : Bool :=
  containsSolutionColonAux false l

/-- Compiled search for `\b(?:answer|solution)\b` (case-insensitive) anywhere
in the text (used to suppress numeric headers whose body references an
answer or solution). -/
def containsAnswerSolutionAux : Bool → Str → Bool
  | _, [] => false
  | prevWord, l@(c :: cs) =>
    (¬ prevWord &&
      ((match matchCI "answer".toList l with
        | some r => bdyAfter r
        | none => false) ||
       (match matchCI "solution".toList l with
        | some r => bdyAfter r
        | none => false))) ||
    containsAnswerSolutionAux (isWordChar c) cs

def containsAnswerSolution (l : Str) : Bool :=
  containsAnswerSolutionAux false l

/-- Compiled NOISE_RE:
`^\s*(?:page\s*\d+|\d+\s*/\s*\d+|www\.|http|©|copyright)\s*$`,
case-insensitive and end-anchored (so only a bare `www.` or `http` line is
noise, not a full URL). -/
def noiseMatch (l : Str) : Bool :=
  let s := skipWs l
  let endWs (r : Str) : Bool := skipWs r = []
  let digits1 (r : Str) : Option Str :=
    let ds := r.takeWhile Char.isDigit
    if ds = [] then none else some (r.dropWhile Char.isDigit)
  let pageB :=
    match matchCI "page".toList s with
    | some r =>
      match digits1 (skipWs r) with
      | some r2 => endWs r2
      | none => false
    | none => false
  let fracB :=
    match digits1 s with
    | some r =>
      (match skipWs r with
       | '/' :: r2 =>
         match digits1 (skipWs r2) with
         | some r3 => endWs r3
         | none => false
       | _ => false)
    | none => false
  let litB (a : String) : Bool :=
    match matchCI a.toList s with
    | some r => endWs r
    | none => false
  pageB || fracB || litB "www." || litB "http" || litB "©" || litB "copyright"

/-! Helper utilities of the source (option keys, option-text merging). -/

/-- Option slots a–d (`option_a` … `option_d`). -/
inductive OptKey | a | b | c | d
deriving DecidableEq, Repr

/-- Ordered slot list, mirroring the tuples `("option_a", …, "option_d")`. -/
def optKeys : List OptKey := [.a, .b, .c, .d]

/-- Compiled `_option_letter_to_key` (the captured letter is `A`–`D`/`a`–`d`). -/
def optionLetterToKey (c : Char) : OptKey :=
  if c.toLower = 'a' then .a
  else if c.toLower = 'b' then .b
  else if c.toLower = 'c' then .c
  else .d

/-- Compiled `_roman_option_to_key`: i/ii/iii/iv → a/b/c/d, else None. -/
def romanOptionToKey (r : Str) : Option OptKey :=
  let s := r.map Char.toLower
  if s = ['i'] then some .a
  else if s = ['i', 'i'] then some .b
  else if s = ['i', 'i', 'i'] then some .c
  else if s = ['i', 'v'] then some .d
  else none

/-- Compiled `_numeric_to_option_key`: 1/2/3/4 → a/b/c/d. -/
def numericToOptionKey (c : Char) : Option OptKey :=
  if c = '1' then some .a
  else if c = '2' then some .b
  else if c = '3' then some .c
  else if c = '4' then some .d
  else none

/-- Result of `_try_option`: a letter slot, or the bullet pseudo-key. -/
inductive OptMatch
  | slot (k : OptKey)
  | bullet
deriving DecidableEq, Repr

/-- Compiled `_try_option(line, in_question)`: OPTION_LETTER always; then,
only inside a question, OPTION_ROMAN, OPTION_NUMERIC, OPTION_BULLET in
order.  Returns the key (or bullet marker) and the stripped body. -/
def tryOption (line : Str) (in_question : Bool) : Option (OptMatch × Str) :=
  match optionLetterMatch line with
  | some (c, body) => some (.slot (optionLetterToKey c), strip body)
  | none =>
    if in_question then
      match optionRomanMatch line with
      | some (r, body) =>
        match romanOptionToKey r with
        | some k => some (.slot k, strip body)
        | none => tryOptionNumeric line
      | none => tryOptionNumeric line
    else none
where
  /-- Continuation of `_try_option` after the roman attempt. -/
  tryOptionNumeric (line : Str) : Option (OptMatch × Str) :=
    match optionNumericMatch line with
    | some (d, body) =>
      match numericToOptionKey d with
      | some k => some (.slot k, strip body)
      | none => tryOptionBullet line
    | none => tryOptionBullet line
  /-- Continuation of `_try_option` after the numeric attempt. -/
  tryOptionBullet (line : Str) : Option (OptMatch × Str) :=
    match optionBulletMatch line with
    | some body => some (.bullet, strip body)
    | none => none

/-- Python truthiness of an optional string: falsy iff absent or empty
(the source tests option slots with `if not current_q.get(key)`). -/
def pyFalsy : Option Str → Bool
  | none => true
  | some s => s = []

/-- Python `str.rstrip()`. -/
def rstrip (l : Str) : Str := (l.reverse.dropWhile isWsChar).reverse

/-- Compiled `re.sub(r"\s+", "", t)`: drop every whitespace character. -/
def removeWs (l : Str) : Str := l.filter (fun c => ¬ isWsChar c)

/-- Compiled `_looks_math_fragment`: nonempty after strip, at most 28
characters, and drawn from `[A-Za-z0-9\[\]\(\)\+\-−=*/.:\s]`. -/
def looksMathFragment (t : Str) : Bool :=
  let s := strip t
  if s = [] ∨ 28 < s.length then false
  else s.all fun c =>
    c.isAlphanum || c = '[' || c = ']' || c = '(' || c = ')' ||
    c = '+' || c = '-' || c = '−' || c = '=' || c = '*' || c = '/' ||
    c = '.' || c = ':' || isWsChar c

/-- Test for `compact_new.lower().startswith("x")` or a prefix match of
`\d*x\d` (case-insensitive): the leading digit run is followed by x/X and a
digit.  The regex `\d*` can only usefully stop at the first non-digit, which
must then be the x. -/
def startsLikeDenominator (compactNew : Str) : Bool :=
  (match compactNew with
   | c :: _ => c.toLower = 'x'
   | [] => false) ||
  (let rest := compactNew.dropWhile Char.isDigit
   match rest with
   | x :: d :: _ => x.toLower = 'x' && d.isDigit
   | _ => false) ||
  (let ds := compactNew.takeWhile Char.isDigit
   let rest := compactNew.dropWhile Char.isDigit
   ds ≠ [] &&
     (match rest with
      | s :: tl => (s = '+' ∨ s = '-' ∨ s = '−') && tl ≠ [] && tl.all Char.isAlphanum
      | [] => false))

/-- Containment of "mv" in the lowercased text. -/
def containsMV : Str → Bool
  | [] => false
  | c :: cs =>
    (c.toLower = 'm' &&
      (match cs with
       | d :: _ => d.toLower = 'v'
       | [] => false)) ||
    containsMV cs

/-- Compiled `_append_option_text(existing, incoming)`. -/
def appendOptionText (existing : Option Str) (incoming : Str) : Str :=
  let newPart := strip incoming
  if newPart = [] then strip (existing.getD [])
  else
    let current := rstrip (existing.getD [])
    if current = [] then newPart
    else if newPart = [']'] ∨ newPart = [')'] then current ++ newPart
    else
      let compactCurrent := removeWs current
      let compactNew := removeWs newPart
      let lastAlnum : Bool :=
        match compactCurrent.getLast? with
        | some c => c.isAlphanum
        | none => false
      if compactNew.all Char.isDigit ∧ compactNew ≠ [] ∧ lastAlnum then
        current ++ compactNew
      else
        let starts := startsLikeDenominator compactNew
        let looks :=
          (match current.getLast? with
           | some c => c = ']'
           | none => false) ||
          containsMV compactCurrent ||
          compactCurrent.any (fun c => c = '+' ∨ c = '-' ∨ c = '−')
        if '/' ∉ current ∧ starts ∧ looks ∧
            looksMathFragment current ∧ looksMathFragment newPart then
          current ++ " / ".toList ++ newPart
        else
          current ++ [' '] ++ newPart

/-- Scanner for `re.sub(r"\s+", " ", t)`: the Boolean records whether the
previous character was whitespace (already replaced), so that each maximal
whitespace run contributes exactly one space. -/
def collapseWsAux : Bool → Str → Str
  | _, [] => []
  | inRun, c :: cs =>
    if isWsChar c then
      if inRun then collapseWsAux true cs else ' ' :: collapseWsAux true cs
    else c :: collapseWsAux false cs

/-- Compiled `re.sub(r"\s+", " ", t)`: replace each maximal whitespace run
with a single space. -/
def collapseWs (l : Str) : Str := collapseWsAux false l

/-- Matcher for the compact-fraction pattern
`\b(mv2\s*0)\s*([23]?\s*x2\s*0)\b` (case-insensitive) at the head of the
text (the preceding `\b` is checked by the caller).  Returns
(group 1, group 2, remainder).  `[23]?` is greedy with one backtrack. -/
def mvPat (l : Str) : Option (Str × Str × Str) :=
  let lit (c : Char) (s : Str) : Option Str :=
    match s with
    | x :: xs => if x.toLower = c then some xs else none
    | [] => none
  (lit 'm' l).bind fun r1 =>
  (lit 'v' r1).bind fun r2 =>
  (lit '2' r2).bind fun r3 =>
  let r4 := skipWs r3
  (lit '0' r4).bind fun r5 =>
    let g1 := l.take (l.length - r5.length)
    let r6 := skipWs r5
    let xPart (s : Str) : Option Str :=
      (lit 'x' s).bind fun a =>
      (lit '2' a).bind fun b =>
      (lit '0' (skipWs b))
    let g2rest : Option (Str × Str) :=
      (match r6 with
       | c :: cs =>
         if c = '2' ∨ c = '3' then
           match xPart (skipWs cs) with
           | some rest => some (r6.take (r6.length - rest.length), rest)
           | none =>
             (xPart r6).map fun rest => (r6.take (r6.length - rest.length), rest)
         else (xPart r6).map fun rest => (r6.take (r6.length - rest.length), rest)
       | [] => none)
    g2rest.bind fun p =>
      if bdyAfter p.2 then some (g1, p.1, p.2) else none

/-- Scanner of `re.sub` for the compact-fraction pattern: leftmost matches
replaced by `g1 / g2`, resuming after each match.  The Boolean carries
whether the previous character was a word character (for the leading `\b`);
fuel bounds the recursion by the text length. -/
def mvSubAux : Nat → Bool → Str → Str
  | 0, _, l => l
  | _ + 1, _, [] => []
  | fuel + 1, prevWord, c :: cs =>
    match if prevWord then none else mvPat (c :: cs) with
    | some (g1, g2, rest) =>
      g1 ++ " / ".toList ++ g2 ++ mvSubAux fuel true rest
    | none => c :: mvSubAux fuel (isWordChar c) cs

/-- Compiled `_normalize_math_option_text`. -/
def normalizeMathOptionText : Option Str → Option Str
  | none => none
  | some t =>
    let normalized := strip (collapseWs t)
    if normalized = [] ∨ '/' ∈ normalized then some normalized
    else some (mvSubAux (normalized.length + 1) false normalized)

/-- Compiled `_MATH_CHAR_MAP` / `_normalize_math_chars`: symbol-font
mis-encodings mapped to the correct math characters. -/
def normalizeMathChars (l : Str) : Str :=
  l.map fun c =>
    if c = '' then '√'
    else if c = '' then '√'
    else if c = '' then '°'
    else if c = '' then '²'
    else if c = '' then '³'
    else if c = '' then '−'
    else if c = '√' then '√'
    else if c = '−' then '−'
    else c

/-! State-machine parser (`parse_questions_from_lines`). -/

/-- Visual line handed to the parser: stripped-later text plus coordinates. -/
structure VLine where
  text : Str
  top : ℚ
  bottom : ℚ
  x0 : ℚ
deriving DecidableEq, Repr

/-- Question record (`_make_question`'s dict).  The `question_image` key is
added only by the screenshot pass; its absence is modelled as `none`.
Fields starting with an underscore in the source keep their names minus the
underscore. -/
structure Question where
  question : Str
  option_a : Option Str := none
  option_b : Option Str := none
  option_c : Option Str := none
  option_d : Option Str := none
  option_a_image : Option Str := none
  option_b_image : Option Str := none
  option_c_image : Option Str := none
  option_d_image : Option Str := none
  has_diagram : Nat := 0
  image_path : Option Str := none
  question_image : Option Str := none
  num : Str
  y_start : ℚ
  y_end : ℚ
  opt_y_a : Option ℚ := none
  opt_y_b : Option ℚ := none
  opt_y_c : Option ℚ := none
  opt_y_d : Option ℚ := none
deriving DecidableEq, Repr

/-- Read an option-text slot. -/
def Question.getOpt (q : Question) : OptKey → Option Str
  | .a => q.option_a
  | .b => q.option_b
  | .c => q.option_c
  | .d => q.option_d

/-- Write an option-text slot. -/
def Question.setOpt (q : Question) : OptKey → Option Str → Question
  | .a, v => { q with option_a := v }
  | .b, v => { q with option_b := v }
  | .c, v => { q with option_c := v }
  | .d, v => { q with option_d := v }

/-- Read an option-image slot. -/
def Question.getOptImage (q : Question) : OptKey → Option Str
  | .a => q.option_a_image
  | .b => q.option_b_image
  | .c => q.option_c_image
  | .d => q.option_d_image

/-- Write an option-image slot. -/
def Question.setOptImage (q : Question) : OptKey → Option Str → Question
  | .a, v => { q with option_a_image := v }
  | .b, v => { q with option_b_image := v }
  | .c, v => { q with option_c_image := v }
  | .d, v => { q with option_d_image := v }

/-- Read an `_opt_y` entry. -/
def Question.getOptY (q : Question) : OptKey → Option ℚ
  | .a => q.opt_y_a
  | .b => q.opt_y_b
  | .c => q.opt_y_c
  | .d => q.opt_y_d

/-- Write an `_opt_y` entry. -/
def Question.setOptY (q : Question) : OptKey → Option ℚ → Question
  | .a, v => { q with opt_y_a := v }
  | .b, v => { q with opt_y_b := v }
  | .c, v => { q with opt_y_c := v }
  | .d, v => { q with opt_y_d := v }

/-- Parser states. -/
inductive MState | IDLE | IN_QUESTION | IN_OPTIONS
deriving DecidableEq, Repr

/-- Parser state: emitted questions, the live question, the state tag, the
stop latch, and the last-option tracking variables. -/
structure PState where
  questions : List Question := []
  current : Option Question := none
  state : MState := .IDLE
  stopped : Bool := false
  last_option_key : Option OptKey := none
  last_option_x0 : ℚ := 0
deriving DecidableEq, Repr

/-- Initial parser state. -/
def initPState : PState := {}

/-- Compiled `_make_question(num_str, text, y_top)`. -/
def makeQuestion (num : Str) (text : Str) (yTop : ℚ) : Question :=
  { question := text, num := num, y_start := yTop, y_end := yTop }

/-- Compiled `_finish_question`: normalise the option texts, emit the record
unconditionally, clear the live question and the last-option tracking. -/
def finishQuestion (st : PState) : PState :=
  match st.current with
  | none => st
  | some q =>
    let q := { q with
      option_a := normalizeMathOptionText q.option_a
      option_b := normalizeMathOptionText q.option_b
      option_c := normalizeMathOptionText q.option_c
      option_d := normalizeMathOptionText q.option_d }
    { st with
      questions := st.questions ++ [q]
      current := none
      last_option_key := none
      last_option_x0 := 0 }

/-- Indentation tolerance `INDENT_TOL` (points). -/
def INDENT_TOL : ℚ := 10

/-- Header forms of the source's branches (the record-creating patterns). -/
inductive HeaderKind | roman | romanOnly | qnumOnly | numeric | ocr
deriving DecidableEq, Repr

/-- Per-line decision of the parser loop body. -/
inductive Action
  | blank
  | stopA
  | skipStopped
  | noise
  | header (kind : HeaderKind) (num : Str) (body : Str)
  | option (k : OptMatch) (text : Str)
  | fallthru
deriving DecidableEq, Repr

/-- Per-line classification, a faithful transcription of the dispatch order
of the loop body of `parse_questions_from_lines`: stop detection (latched),
noise, roman headers, the option attempt, number-only and numeric headers
with their four suppression rules, and the OCR-spaced header restricted to
IDLE.  The classification reads only `st.state`, `st.current.isSome` and
`st.stopped`, never coordinates, so it can be separated from the state
update (`applyAction`). -/
def classify (st : PState) (lineRaw : Str) : Action :=
  let line := strip lineRaw
  if line = [] then .blank
  else if stopMatch line then .stopA
  else if ¬ st.stopped ∧ containsSolutionColon line then .stopA
  else if st.stopped then .skipStopped
  else if noiseMatch line then .noise
  else
    let in_question_ctx : Bool :=
      (st.state = .IN_QUESTION ∨ st.state = .IN_OPTIONS) ∧ st.current.isSome
    let q_rom := qRomanMatch line
    let qrom_only := qnumRomanOnlyMatch line
    match q_rom with
    | some (g1, g2) =>
      if g1 ≠ [] then .header .roman (g1.map Char.toUpper) (strip g2)
      else classifyTail st line in_question_ctx qrom_only
    | none => classifyTail st line in_question_ctx qrom_only
where
  /-- Continuation of the dispatch after the roman-header attempt. -/
  classifyTail (st : PState) (line : Str) (in_question_ctx : Bool)
      (qrom_only : Option Str) : Action :=
    let romOnlyHdr : Option Action := qrom_only.bind fun g =>
      if g ≠ [] then some (.header .romanOnly (g.map Char.toUpper) []) else none
    match romOnlyHdr with
    | some a => a
    | none =>
      let opt := tryOption line in_question_ctx
      let qnum_only := qnumOnlyMatch line
      let q_num0 := (qPrefixedMatch line).orElse fun _ => qBareNumMatch line
      let q_num1 := q_num0.bind fun p =>
        if isValidQuestionStart p.1 then some (p.1, strip p.2) else none
      let q_num2 := q_num1.bind fun p =>
        if st.state = .IN_OPTIONS ∧ st.current.isSome ∧ p.2 = [] then none
        else some p
      let q_num3 := q_num2.bind fun p =>
        if opt.isSome then none else some p
      let q_num4 := q_num3.bind fun p =>
        if containsAnswerSolution p.2 then none else some p
      let q_ocr : Option (Str × Str) :=
        if st.state = .IDLE ∧ q_num4 = none ∧ opt = none ∧ qnum_only = none then
          (qOcrSpacedMatch line).bind fun p =>
            let collapsed := p.1.filter (· ≠ ' ')
            if isValidQuestionStart collapsed then some (collapsed, strip p.2)
            else none
        else none
      match qnum_only, opt with
      | some n, none => .header .qnumOnly n []
      | _, _ =>
        match q_num4 with
        | some (n, rest) =>
          if rest ≠ [] then .header .numeric n rest
          else classifyTail2 q_ocr opt
        | none => classifyTail2 q_ocr opt
  /-- Final steps of the dispatch: OCR header, option, fall-through. -/
  classifyTail2 (q_ocr : Option (Str × Str)) (opt : Option (OptMatch × Str)) :
      Action :=
    match q_ocr with
    | some (n, body) => .header .ocr n body
    | none =>
      match opt with
      | some (k, text) => .option k text
      | none => .fallthru

/-- Compiled `_assign_bullet_option`: the first falsy slot in order a→d
receives the text; returns the updated record and the assigned key. -/
def assignBulletOption (q : Question) (text : Str) : Question × Option OptKey :=
  match optKeys.find? (fun k => pyFalsy (q.getOpt k)) with
  | some k => (q.setOpt k (some text), some k)
  | none => (q, none)

/-- State update for one classified line, mirroring the loop body.  The
`_y_end` of the live question is set to the line's bottom for every action
that survives the stop/blank/noise screens — including header lines, whose
update lands on the record being finalised. -/
def applyAction (st : PState) (vl : VLine) (a : Action) : PState :=
  match a with
  | .blank => st
  | .skipStopped => st
  | .noise => st
  | .stopA => { finishQuestion st with stopped := true }
  | .header _ num body =>
    let st := { st with
      current := st.current.map fun (q : Question) => { q with y_end := vl.bottom } }
    let st := finishQuestion st
    { st with
      current := some (makeQuestion num body vl.top)
      state := .IN_QUESTION
      last_option_key := none
      last_option_x0 := 0 }
  | .option k text =>
    let st := { st with
      current := st.current.map fun (q : Question) => { q with y_end := vl.bottom } }
    match st.current with
    | none => st
    | some q =>
      match k with
      | .bullet =>
        let (q2, assigned) := assignBulletOption q text
        match assigned with
        | some key =>
          let q3 :=
            if (q2.getOptY key).isNone then q2.setOptY key (some vl.top) else q2
          { st with
            current := some q3
            state := .IN_OPTIONS
            last_option_key := some key
            last_option_x0 := vl.x0 }
        | none => { st with current := some q2, state := .IN_OPTIONS }
      | .slot key =>
        if pyFalsy (q.getOpt key) then
          let q2 := q.setOpt key (some text)
          let q3 :=
            if (q2.getOptY key).isNone then q2.setOptY key (some vl.top) else q2
          { st with
            current := some q3
            state := .IN_OPTIONS
            last_option_key := some key
            last_option_x0 := vl.x0 }
        else { st with current := some q, state := .IN_OPTIONS }
  | .fallthru =>
    let st := { st with
      current := st.current.map fun (q : Question) => { q with y_end := vl.bottom } }
    match st.current with
    | none => st
    | some q =>
      let line := strip vl.text
      match st.state with
      | .IN_QUESTION =>
        let sep : Str := if q.question = [] then [] else [' ']
        { st with current := some { q with question := q.question ++ sep ++ line } }
      | .IN_OPTIONS =>
        match st.last_option_key with
        | some k =>
          if (q.getOpt k).isSome ∧ vl.x0 ≥ st.last_option_x0 + INDENT_TOL then
            { st with
              current := some (q.setOpt k (some (appendOptionText (q.getOpt k) line))) }
          else if (q.getOpt k).isSome then
            { st with
              current := some (q.setOpt k (some (appendOptionText (q.getOpt k) line))) }
          else st
        | none => st
      | .IDLE => st

/-- One iteration of the parser loop. -/
def step (st : PState) (vl : VLine) : PState :=
  applyAction st vl (classify st vl.text)

/-- Compiled `parse_questions_from_lines`: fold the loop over the visual
lines, then the final `_finish_question()`. -/
def parse_questions_from_lines (visual_lines : List VLine) : List Question :=
  (finishQuestion (visual_lines.foldl step initPState)).questions

/-! Image pipeline: the pure passes of `parse_with_diagram_info`, taking the
already-collected visual lines, image regions and page frames (all in the
global Y coordinate system, as produced by the PDF-reading loop). -/

/-- Extracted image region, already shifted into global Y coordinates. -/
structure ImgRegion where
  path : Str
  top : ℚ
  bottom : ℚ
deriving DecidableEq, Repr

/-- Page frame kept for late cropping (the live page handle is dropped: only
its geometry matters to the embedded passes). -/
structure PageMeta where
  y_offset : ℚ
  height : ℚ
  page_num : Nat
deriving DecidableEq, Repr

/-- Y-axis attachment tolerance `IMAGE_Y_TOLERANCE` (points). -/
def IMAGE_Y_TOLERANCE : ℚ := 150

/-- Scan of a `best_dist`/`best_q` fold: candidates are listed in question
order, `none` marks an ineligible question, and only a strictly smaller
distance displaces the current best (Python `if dist < best_dist`).
`i` is the index of the first candidate. -/
def bestScanAux : Nat → Option (Nat × ℚ) → List (Option ℚ) → Option (Nat × ℚ)
  | _, best, [] => best
  | i, best, c :: rest =>
    let best2 :=
      match c, best with
      | some d, none => some (i, d)
      | some d, some (bi, bd) => if d < bd then some (i, d) else some (bi, bd)
      | none, b => b
    bestScanAux (i + 1) best2 rest

def bestScan (l : List (Option ℚ)) : Option (Nat × ℚ) := bestScanAux 0 none l

/-- Tolerance-pass candidate for one question: eligible when the image centre
lies in the extended range `[_y_start − 150, _y_end + 150]`; distance 0
inside `[_y_start, _y_end]`, else distance to the nearer endpoint. -/
def tolCand (cy : ℚ) (q : Question) : Option ℚ :=
  if q.y_start - IMAGE_Y_TOLERANCE ≤ cy ∧ cy ≤ q.y_end + IMAGE_Y_TOLERANCE then
    some (if q.y_start ≤ cy ∧ cy ≤ q.y_end then 0
          else min |cy - q.y_start| |cy - q.y_end|)
  else none

/-- Fallback-pass candidate: plain endpoint distance, every question eligible. -/
def fbCand (cy : ℚ) (q : Question) : Option ℚ :=
  some (min |cy - q.y_start| |cy - q.y_end|)

/-- Index of the question an image centred at `cy` attaches to: the
tolerance pass, then, only if it produced nothing, the global fallback. -/
def attachTarget (qs : List Question) (cy : ℚ) : Option Nat :=
  match bestScan (qs.map (tolCand cy)) with
  | some (i, _) => some i
  | none => (bestScan (qs.map (fbCand cy))).map (·.1)

/-- Attachment of one image: set `has_diagram`, and set or comma-append
`image_path` on the winning question. -/
def attachOne (qs : List Question) (img : ImgRegion) : List Question :=
  let cy := (img.top + img.bottom) / 2
  match attachTarget qs cy with
  | none => qs
  | some i =>
    match qs.get? i with
    | none => qs
    | some q =>
      let q := { q with
        has_diagram := 1
        image_path :=
          match q.image_path with
          | none => some img.path
          | some s => some (s ++ [','] ++ img.path) }
      qs.set i q

/-- Python `s.split(",")` on character lists. -/
def splitComma : Str → List Str
  | [] => [[]]
  | c :: cs =>
    if c = ',' then [] :: splitComma cs
    else
      match splitComma cs with
      | h :: t => (c :: h) :: t
      | [] => [[c]]

/-- Python `",".join(parts)` on character lists. -/
def joinComma : List Str → Str
  | [] => []
  | [p] => p
  | p :: ps => p ++ [','] ++ joinComma ps

/-- Lookup in the `path_to_coords` dict (last binding wins, as for a Python
dict comprehension over a list with duplicate keys). -/
def pathToCoords (all_images : List ImgRegion) (p : Str) : Option (ℚ × ℚ) :=
  (all_images.reverse.find? (fun i => i.path = p)).map fun i => (i.top, i.bottom)

/-- Recorded option anchors of a question in alphabetical key order
(`sorted(opt_y.keys())`, and also the iteration order of the dict the
source then builds from them). -/
def optYPresent (q : Question) : List (OptKey × ℚ) :=
  optKeys.filterMap fun k => (q.getOptY k).map fun y => (k, y)

/-- Option Y-ranges: each letter spans from its own anchor to the next
listed letter's anchor, the last to `_y_end + IMAGE_Y_TOLERANCE`. -/
def mkRanges (yEnd : ℚ) : List (OptKey × ℚ) → List (OptKey × ℚ × ℚ)
  | [] => []
  | (k, y) :: rest =>
    let ye :=
      match rest.head? with
      | some (_, y2) => y2
      | none => yEnd + IMAGE_Y_TOLERANCE
    (k, y, ye) :: mkRanges yEnd rest

/-- Per-path promotion loop: the first letter (in the ranges' listed order)
whose range `[y_s − 20, y_e]` contains the image centre claims the path —
but only into an empty (falsy) slot; otherwise the path stays in
`remaining`.  Paths without coordinates stay in `remaining`. -/
def promotePathsAux (ranges : List (OptKey × ℚ × ℚ))
    (pathCoords : Str → Option (ℚ × ℚ)) :
    Question → List Str → List Str → Question × List Str
  | q, remaining, [] => (q, remaining)
  | q, remaining, p :: ps =>
    match pathCoords p with
    | none => promotePathsAux ranges pathCoords q (remaining ++ [p]) ps
    | some (t, b) =>
      let cy := (t + b) / 2
      match ranges.find? (fun r => decide (r.2.1 - 20 ≤ cy ∧ cy ≤ r.2.2)) with
      | some r =>
        if pyFalsy (q.getOptImage r.1) then
          promotePathsAux ranges pathCoords (q.setOptImage r.1 (some p)) remaining ps
        else promotePathsAux ranges pathCoords q (remaining ++ [p]) ps
      | none => promotePathsAux ranges pathCoords q (remaining ++ [p]) ps

/-- Promotion of question-level images to per-option slots for one question
(the second pass of `parse_with_diagram_info`). -/
def promoteQ (pathCoords : Str → Option (ℚ × ℚ)) (q : Question) : Question :=
  if optYPresent q = [] ∨ pyFalsy q.image_path then q
  else
    let ranges := mkRanges q.y_end (optYPresent q)
    let paths := splitComma (q.image_path.getD [])
    let pr := promotePathsAux ranges pathCoords q [] paths
    { pr.1 with
      image_path := if pr.2 = [] then none else some (joinComma pr.2) }

/-- Top padding `PAD_TOP` of the screenshot cropper (points). -/
def PAD_TOP : ℚ := 6

/-- Whether a page contributes a slice to the crop of
`[y_start_global − PAD_TOP, y_end_global]`: positive overlap with the page's
global range, and a positive page-local interval. -/
def pageContributes (ys ye : ℚ) (pm : PageMeta) : Bool :=
  let os := max (ys - PAD_TOP) pm.y_offset
  let oe := min ye (pm.y_offset + pm.height)
  decide (os < oe ∧ max 0 (os - pm.y_offset) < min pm.height (oe - pm.y_offset))

/-- Compiled `_crop_question_screenshot`, its geometry: the crop succeeds iff
some page contributes a slice; the saved asset name is rendered without the
opaque uuid suffix.  Render/save failures (I/O) are outside the model. -/
def cropQuestionScreenshot (page_meta : List PageMeta) (ys ye : ℚ)
    (qIdx : Nat) : Option Str :=
  if page_meta.any (pageContributes ys ye) then
    some ("qshot".toList ++ (toString qIdx).toList ++ ".png".toList)
  else none

/-- Screenshot pass: crop each question's span, clamping the bottom to the
next question's `_y_start`. -/
def screenshotPass (page_meta : List PageMeta) (qs : List Question) :
    List Question :=
  qs.mapIdx fun idx q =>
    let ye :=
      match qs.get? (idx + 1) with
      | some nq => min q.y_end nq.y_start
      | none => q.y_end
    { q with question_image := cropQuestionScreenshot page_meta q.y_start ye (idx + 1) }

/-- Compiled pure core of `parse_with_diagram_info`: parse the visual lines,
attach images, promote per-option images, crop screenshots.  (The final pop
of the internal `_num`/`_y_*`/`_opt_y` keys only hides bookkeeping fields;
the records are returned whole here.) -/
def parse_with_diagram_info (lines : List VLine) (all_images : List ImgRegion)
    (page_meta : List PageMeta) : List Question :=
  let questions := parse_questions_from_lines lines
  let questions := all_images.foldl attachOne questions
  let questions := questions.map (promoteQ (pathToCoords all_images))
  screenshotPass page_meta questions

/-! Upload boundary and persistence (`upload_pdf`, `init_db`,
`insert_questions`), modelled past the point where the extractor returned
without raising: the store state and the JSON outcome. -/

/-- Persistence store: `none` = no table, `some rows` = the table rows. -/
abbrev DBState := Option (List Question)

/-- Compiled `init_db`: DROP TABLE IF EXISTS then CREATE — the store becomes
an empty table whatever it was. -/
def init_db (_ : DBState) : DBState := some []

/-- Compiled `insert_questions`: INSERT the records in order. -/
def insert_questions (db : DBState) (qs : List Question) : DBState :=
  db.map (· ++ qs)

/-- Outcome of the upload endpoint after a successful extraction. -/
inductive UploadResult
  | noQuestions
  | ok (count : Nat) (redirect : Str)
deriving DecidableEq, Repr

/-- Compiled tail of `upload_pdf` for an upload whose extraction completed
without exception: empty extraction ⇒ the 422-class `noQuestions` error and
an untouched store; otherwise re-initialise the store, insert every record,
and answer `{count, redirect: "/test"}`. -/
def upload_pdf (db : DBState) (questions : List Question) :
    DBState × UploadResult :=
  if questions = [] then (db, .noQuestions)
  else
    let db := init_db db
    let db := insert_questions db questions
    (db, .ok questions.length "/test".toList)

/-! Glyph→line reconstruction (`_extract_text_lines`). -/

/-- Raw glyph record (pdfplumber `page.chars` entry).  The source reads the
keys through `.get` with defaults; the records pdfplumber yields carry all
of them, so the fields are total here. -/
structure CharRec where
  text : Str
  x0 : ℚ
  x1 : ℚ
  top : ℚ
  bottom : ℚ
  size : ℚ
deriving DecidableEq, Repr

/-- Row-grouping tolerance `LINE_Y_TOL` (points). -/
def LINE_Y_TOL : ℚ := 5

/-- Row grouping: a new row starts when a glyph's `top` differs from the
current row's anchor `top` by more than `LINE_Y_TOL`. -/
def groupRowsGo : List CharRec → List CharRec → ℚ → List (List CharRec)
  | [], cur, _ => [cur]
  | c :: cs, cur, curTop =>
    if |c.top - curTop| ≤ LINE_Y_TOL then groupRowsGo cs (cur ++ [c]) curTop
    else cur :: groupRowsGo cs [c] c.top

def groupRows : List CharRec → List (List CharRec)
  | [] => []
  | c0 :: rest => groupRowsGo rest [c0] c0.top

/-- Dominant font size: the middle element (`len // 2`) of the ascending
sort of the positive glyph sizes, else 12.0. -/
def dominantSize (rows : List (List CharRec)) : ℚ :=
  let allSizes := sortedBy (fun a b => decide (a ≤ b)) ((rows.flatten.map (·.size)).filter (0 < ·))
  match allSizes.get? (allSizes.length / 2) with
  | some s => s
  | none => 12

/-- Text reconstruction inside a row (already sorted by `x0`): emit glyph
texts left to right, inserting one space when the gap to the previous
glyph's right edge exceeds a quarter of the font size.  A glyph size of 0
falls back to the dominant size (`float(...) or dominant_size`), and
`prev_x1` advances to `max(prev_x1 or 0.0, x1)`. -/
def buildRowText (dom : ℚ) : Option ℚ → List CharRec → Str
  | _, [] => []
  | prevX1, c :: cs =>
    if c.text = [] then buildRowText dom prevX1 cs
    else
      let sz := if c.size = 0 then dom else c.size
      let gap : Str :=
        match prevX1 with
        | some pv => if pv + sz * (1/4) < c.x0 then [' '] else []
        | none => []
      gap ++ c.text ++ buildRowText dom (some (max (prevX1.getD 0) c.x1)) cs

/-- Superscript digit mapping `0123456789 → ⁰¹²³⁴⁵⁶⁷⁸⁹`. -/
def supDigit (c : Char) : Char :=
  if c = '0' then '⁰' else if c = '1' then '¹' else if c = '2' then '²'
  else if c = '3' then '³' else if c = '4' then '⁴' else if c = '5' then '⁵'
  else if c = '6' then '⁶' else if c = '7' then '⁷' else if c = '8' then '⁸'
  else if c = '9' then '⁹' else c

/-- Subscript digit mapping `0123456789 → ₀₁₂₃₄₅₆₇₈₉`. -/
def subDigit (c : Char) : Char :=
  if c = '0' then '₀' else if c = '1' then '₁' else if c = '2' then '₂'
  else if c = '3' then '₃' else if c = '4' then '₄' else if c = '5' then '₅'
  else if c = '6' then '₆' else if c = '7' then '₇' else if c = '8' then '₈'
  else if c = '9' then '₉' else c

/-- Raw text of a row: sorted by `x0`, gap-spaced, stripped (before
symbol-font normalisation). -/
def rowText0 (dom : ℚ) (row : List CharRec) : Str :=
  strip (buildRowText dom none (sortedBy (fun a b => decide (a.x0 ≤ b.x0)) row))

/-- Average `top` over all glyphs of a row. -/
def rowAvgTop (row : List CharRec) : ℚ :=
  (row.map (·.top)).sum / (row.length : ℚ)

/-- Average `bottom` over all glyphs of a row. -/
def rowAvgBot (row : List CharRec) : ℚ :=
  (row.map (·.bottom)).sum / (row.length : ℚ)

/-- Leftmost `x0` of a row. -/
def rowMinX0 (row : List CharRec) : ℚ :=
  ((row.map (·.x0)).min?).getD 0

/-- Average of the positive glyph sizes of a row, 0 when there are none. -/
def rowAvgSize (row : List CharRec) : ℚ :=
  let sizesRow := (row.map (·.size)).filter (0 < ·)
  if sizesRow = [] then 0 else sizesRow.sum / (sizesRow.length : ℚ)

/-- Emission step for one glyph row: rebuild its text; skip if empty;
normalise symbol fonts; a small row (positive average size below 80% of the
dominant) with a preceding kept line is folded into it with
superscript/subscript digit mapping by relative centre, extending the
previous line's bottom; otherwise the row is emitted standalone. -/
def processRow (dom : ℚ) (acc : List VLine) (row : List CharRec) : List VLine :=
  if rowText0 dom row = [] then acc
  else
    let text := normalizeMathChars (rowText0 dom row)
    let avgTop := rowAvgTop row
    let avgBot := rowAvgBot row
    let isSub := decide (0 < rowAvgSize row ∧ rowAvgSize row < dom * (80/100))
    let standalone := acc ++ [⟨text, avgTop, avgBot, rowMinX0 row⟩]
    if isSub then
      match acc.getLast? with
      | some prev =>
        let prevCenter := (prev.top + prev.bottom) / 2
        let rowCenter := avgTop + (avgBot - avgTop) / 2
        let mapped :=
          if rowCenter < prevCenter then text.map supDigit else text.map subDigit
        acc.dropLast ++
          [{ prev with text := prev.text ++ mapped, bottom := max prev.bottom avgBot }]
      | none => standalone
    else standalone

/-- Compiled `_extract_text_lines`: sort glyphs by `(top, x0)`, group into
Y-rows, compute the dominant size, then emit/fold each row in order. -/
def extract_text_lines (chars : List CharRec) : List VLine :=
  match chars with
  | [] => []
  | _ =>
    let sortedChars := sortedBy
      (fun a b => decide (a.top < b.top ∨ (a.top = b.top ∧ a.x0 ≤ b.x0))) chars
    let rows := groupRows sortedChars
    let dom := dominantSize rows
    rows.foldl (processRow dom) []

/-! Reference definition written from the words of claim C4 (per-option
promotion with the letters sorted by anchor Y), used to compare the claim
against the source's promotion pass. -/

/-- Promotion as claim C4 words it: letters sorted by their anchor Y
ascending; ranges from each anchor to the next sorted anchor (the last to
`_y_end + 150`); each attached image goes to the first letter in that order
whose range `[y_s − 20, y_e]` contains its centre AND whose option-image
slot is still empty; unclaimed paths remain question-level. -/
def promoteQClaimedYSorted (pathCoords : Str → Option (ℚ × ℚ))
    (q : Question) : Question :=
  if optYPresent q = [] ∨ pyFalsy q.image_path then q
  else
    let lettersByY := sortedBy (fun a b => decide (a.2 ≤ b.2)) (optYPresent q)
    let ranges := mkRanges q.y_end lettersByY
    let paths := splitComma (q.image_path.getD [])
    let pr := claimedGo ranges q [] paths
    { pr.1 with
      image_path := if pr.2 = [] then none else some (joinComma pr.2) }
where
  /-- Per-path loop of the claim's wording: first Y-ordered letter whose
  range contains the centre and whose slot is empty claims the path. -/
  claimedGo (ranges : List (OptKey × ℚ × ℚ)) :
      Question → List Str → List Str → Question × List Str
    | q, remaining, [] => (q, remaining)
    | q, remaining, p :: ps =>
      match pathCoords p with
      | none => claimedGo ranges q (remaining ++ [p]) ps
      | some (t, b) =>
        let cy := (t + b) / 2
        match ranges.find? (fun r =>
            decide (r.2.1 - 20 ≤ cy ∧ cy ≤ r.2.2) && pyFalsy (q.getOptImage r.1)) with
        | some r => claimedGo ranges (q.setOptImage r.1 (some p)) remaining ps
        | none => claimedGo ranges q (remaining ++ [p]) ps

/-! Further definitions used to state the claims. -/

/-- Stop condition of the parser loop for one line: STOP_PATTERNS matches, or
the line contains `\bsolution\s*:`. -/
def isStopLine (l : Str) : Bool := stopMatch l || containsSolutionColon l

/-- Candidate-distance list of the pass that decides an image's attachment:
the tolerance pass when it yields anything, else the fallback pass. -/
def attachCands (qs : List Question) (cy : ℚ) : List (Option ℚ) :=
  if (bestScan (qs.map (tolCand cy))).isSome then qs.map (tolCand cy)
  else qs.map (fbCand cy)

/-- Position of an option key in the alphabetical order a, b, c, d. -/
def keyIdx : OptKey → Nat
  | .a => 0
  | .b => 1
  | .c => 2
  | .d => 3

/-- Sort of the anchor entries by alphabetical key order. -/
def sortByKeyAlpha (l : List (OptKey × ℚ)) : List (OptKey × ℚ) :=
  sortedBy (fun a b => decide (keyIdx a.1 ≤ keyIdx b.1)) l

/-- Reference definition written from the words of amended claim C4: the
option letters are processed sorted alphabetically by letter (which is what
`sorted(opt_y.keys())` produces); ranges run from each anchor to the next
letter's anchor (the last to `_y_end + 150`); an image is claimed by the
first letter in that order whose range contains its centre, and only into
an empty slot, otherwise the path stays question-level. -/
def promoteQAmended (pathCoords : Str → Option (ℚ × ℚ)) (q : Question) :
    Question :=
  if optYPresent q = [] ∨ pyFalsy q.image_path then q
  else
    let ranges := mkRanges q.y_end (sortByKeyAlpha (optYPresent q))
    let paths := splitComma (q.image_path.getD [])
    let pr := promotePathsAux ranges pathCoords q [] paths
    { pr.1 with
      image_path := if pr.2 = [] then none else some (joinComma pr.2) }

/-- Record with no image data: `has_diagram = 0`, no question-level path, no
option images (the state every record leaves the parser in). -/
def ZeroImg (q : Question) : Prop :=
  q.has_diagram = 0 ∧ q.image_path = none ∧
  q.option_a_image = none ∧ q.option_b_image = none ∧
  q.option_c_image = none ∧ q.option_d_image = none

/-- Paths that can appear in `image_path` lists: nonempty and comma-free. -/
@[reducible] def GoodPath (p : Str) : Prop := p ≠ [] ∧ ',' ∉ p

/-- Invariant after the attachment pass: either no image data, or the flag is
set and `image_path` is the comma-join of a nonempty list of good paths
with all option-image slots still empty. -/
def AttInv (q : Question) : Prop :=
  ZeroImg q ∨
  (q.has_diagram = 1 ∧
    (∃ ps : List Str, ps ≠ [] ∧ (∀ p ∈ ps, GoodPath p) ∧
      q.image_path = some (joinComma ps)) ∧
    q.option_a_image = none ∧ q.option_b_image = none ∧
    q.option_c_image = none ∧ q.option_d_image = none)

/-- Invariant after promotion: either no image data, or the flag is set and a
nonempty question-level path or some nonempty option image remains. -/
def FinInv (q : Question) : Prop :=
  ZeroImg q ∨
  (q.has_diagram = 1 ∧
    (pyFalsy q.image_path = false ∨ pyFalsy q.option_a_image = false ∨
     pyFalsy q.option_b_image = false ∨ pyFalsy q.option_c_image = false ∨
     pyFalsy q.option_d_image = false))

/-- Actions produced by the dispatch tail (after the stop/noise screens):
header, option, or fall-through. -/
def isLateAction : Action → Bool
  | .header _ _ _ => true
  | .option _ _ => true
  | .fallthru => true
  | _ => false

/-! Concrete fixtures used by witnesses and counterexamples. -/

/-- Visual line from plain data. -/
def mkVL (s : String) (t b x : ℚ) : VLine := ⟨s.toList, t, b, x⟩

/-- Minimal demo record. -/
def demoQ : Question :=
  { question := "demo".toList, num := "1".toList, y_start := 0, y_end := 10 }

/-- Second demo record, lower on the page. -/
def demoQ2 : Question :=
  { question := "demo2".toList, num := "2".toList, y_start := 90, y_end := 100 }

/-- Record with out-of-order option anchors (option b above option a) and one
attached image, exercising the promotion pass. -/
def swapQ : Question :=
  { question := "q".toList, num := "1".toList, y_start := 100, y_end := 400
    option_a := some "x".toList, option_b := some "y".toList
    opt_y_a := some 300, opt_y_b := some 200
    has_diagram := 1, image_path := some "p1".toList }

/-- Image region whose centre (320) falls between the two anchors' ranges of
`swapQ` in a way that separates alphabetical from Y-sorted processing. -/
def swapImgs : List ImgRegion := [⟨"p1".toList, 310, 330⟩]

/-- Lines of a two-question document (the second header is `Q.`-prefixed so
that it cannot be read as a numeric option). -/
def twoQLines : List VLine :=
  [mkVL "1. A?" 0 10 0, mkVL "A) x" 20 30 0, mkVL "Q.2 B?" 200 210 0]

/-- One image region near question 1 of `twoQLines`. -/
def oneImg : List ImgRegion := [⟨"img1".toList, 0, 60⟩]

/-- One tall page frame. -/
def onePage : List PageMeta := [⟨0, 800, 1⟩]

/-- Live record holding a non-empty option a, as after `1. W?`, `A) bar`. -/
def liveQ : Question :=
  { question := "W?".toList, num := "1".toList, y_start := 0, y_end := 30,
    option_a := some "bar".toList, opt_y_a := some 20 }

/-- Parser state with `liveQ` live and its option a as the last option. -/
def liveSt : PState :=
  { questions := []
    current := some liveQ
    state := .IN_OPTIONS
    stopped := false
    last_option_key := some .a
    last_option_x0 := 0 }

/-! Theorems for the claims.  The Batteries rational-number operations are
irreducible by default, which blocks `decide`-style evaluation of the
embedded geometry; they are restored to normal reducibility here. -/

/-- The ten digit characters. -/
def digitChars : List Char := ['0','1','2','3','4','5','6','7','8','9']

/-- Every digit string of length 1 to 3 (the candidate "bare numbers" of
claim C6). -/
def digitStrs3 : List Str :=
  (digitChars.map fun a => [a]) ++
  (digitChars.flatMap fun a => digitChars.map fun b => [a, b]) ++
  (digitChars.flatMap fun a => digitChars.flatMap fun b =>
    digitChars.map fun c => [a, b, c])

/-- Failure of every classifier pattern on a (stripped) line: such a line is
neither stop, noise, header of any form, nor an option. -/
def bareDigitsSafe (s : Str) : Bool :=
  !stopMatch s && !containsSolutionColon s && !noiseMatch s &&
  (qRomanMatch s).isNone && (qnumRomanOnlyMatch s).isNone &&
  (tryOption s true).isNone && (tryOption s false).isNone &&
  (qnumOnlyMatch s).isNone && (qPrefixedMatch s).isNone &&
  (qBareNumMatch s).isNone && (qOcrSpacedMatch s).isNone

/-- First record of the demo pipeline run (used as a concrete emitted
record). -/
def c5rec : Question :=
  ((parse_with_diagram_info twoQLines oneImg onePage).get? 0).getD
    (makeQuestion [] [] 0)

/-- Parser-phase invariant: every emitted and live record still carries no
image data. -/
def ParseImgInv (st : PState) : Prop :=
  (∀ q ∈ st.questions, ZeroImg q) ∧ (∀ q, st.current = some q → ZeroImg q)

/-- Some option-image slot holds a nonempty path. -/
def nonFalsySlot (q : Question) : Prop :=
  ∃ k p, q.getOptImage k = some p ∧ p ≠ []

/-- Small-row fixture: one glyph of size 5 (below 80% of the dominant 10),
sitting below the previous line's centre. -/
def c8row : List CharRec := [⟨"2".toList, 0, 1, 2, 4, 5⟩]

/-- Preceding kept row for the small-row fixture. -/
def c8prev : VLine := mkVL "x" 0 10 0

section ClaimTheorems

attribute [local semireducible] Rat.add Rat.mul Rat.inv Rat.sub


/-- Claim C9: for an upload whose extraction completed without exception,
an empty record list yields the 422-class error with the store untouched;
otherwise the store is dropped and recreated, all records are inserted, and
the response is `{count: N, redirect: "/test"}`. -/
theorem c9_upload_contract (db : DBState) (qs : List Question) :
    (qs = [] → upload_pdf db qs = (db, .noQuestions)) ∧
    (qs ≠ [] → upload_pdf db qs = (some qs, .ok qs.length "/test".toList)) := by
  constructor
  · intro h
    simp [upload_pdf, h]
  · intro h
    simp [upload_pdf, h, init_db, insert_questions]

/-- Witness for C9 at a concrete non-empty extraction. -/
theorem c9_upload_contract_witness :
    upload_pdf none [demoQ] = (some [demoQ], .ok 1 "/test".toList) :=
  (c9_upload_contract none [demoQ]).2 (by simp)

/-- Counterexample to claim C2: the number-only prefixed header form is not
checked against the 200 bound — the single line `Q.300` produces a record
whose header value 300 exceeds 200, where the claim requires that no record
be created. -/
theorem c2_counterexample :
    (parse_questions_from_lines [mkVL "Q.300" 0 10 0]).map Question.num =
      ["300".toList] ∧ 200 < digitsVal "300".toList := by decide

/-- Counterexample to claim C1: on `1. W?`, `(A)`, `A) foo` the slot
`option_a` is first assigned the empty body of the bare `(A)` line and then
reassigned `foo` by the later option line (the source guards assignment with
Python falsiness, not with absence), where the claim says the empty first
occurrence should have won. -/
theorem c1_counterexample :
    (([mkVL "1. W?" 0 10 0, mkVL "(A)" 20 30 0].foldl step initPState).current.map
        (·.option_a) = some (some [])) ∧
    (parse_questions_from_lines
        [mkVL "1. W?" 0 10 0, mkVL "(A)" 20 30 0, mkVL "A) foo" 40 50 0]).map
        (·.option_a) = [some "foo".toList] := by decide

/-- Counterexample to claim C3: with `1. A?` (bottom 10) followed by the next
header `Q.2 B?` (bottom 30), the first emitted record's `_y_end` is 30 — the
bottom of the next question's header line — not 10, the bottom of its own
last line as the claim requires. -/
theorem c3_counterexample :
    (parse_questions_from_lines [mkVL "1. A?" 0 10 0, mkVL "Q.2 B?" 20 30 0]).map
      (·.y_end) = [30, 20] ∧ (30 : ℚ) ≠ 10 := by decide

/-- Counterexample to claim C4: on a record whose option-b anchor (200) lies
above its option-a anchor (300), the source's promotion (alphabetical letter
order) gives the image to option b, while the claim's Y-sorted promotion
would give it to option a. -/
theorem c4_counterexample :
    promoteQ (pathToCoords swapImgs) swapQ ≠
      promoteQClaimedYSorted (pathToCoords swapImgs) swapQ ∧
    (promoteQ (pathToCoords swapImgs) swapQ).option_b_image = some "p1".toList ∧
    (promoteQClaimedYSorted (pathToCoords swapImgs) swapQ).option_a_image =
      some "p1".toList := by decide

/-- Finalisation does not touch the stop latch. -/
theorem finishQuestion_stopped (st : PState) :
    (finishQuestion st).stopped = st.stopped := by
  unfold finishQuestion
  split <;> rfl

/-- Only the stop action flips the stop latch. -/
theorem applyAction_stopped (st : PState) (vl : VLine) (a : Action)
    (ha : a ≠ .stopA) : (applyAction st vl a).stopped = st.stopped := by
  cases a
  case blank => rfl
  case stopA => exact absurd rfl ha
  case skipStopped => rfl
  case noise => rfl
  case header =>
    simp only [applyAction]
    rw [finishQuestion_stopped]
  case option =>
    simp only [applyAction]
    repeat' split
    all_goals rfl
  case fallthru =>
    simp only [applyAction]
    repeat' split
    all_goals rfl

/-- Once stopped with no live question, a step is the identity. -/
theorem step_stopped_id (st : PState) (vl : VLine) (h1 : st.stopped = true)
    (h2 : st.current = none) : step st vl = st := by
  have hcl : classify st vl.text = .blank ∨ classify st vl.text = .stopA ∨
      classify st vl.text = .skipStopped := by
    unfold classify
    by_cases hb : strip vl.text = []
    · simp [hb]
    · simp only [hb, if_false, h1]
      split
      · simp
      · simp
  have hfin : finishQuestion st = st := by
    unfold finishQuestion
    rw [h2]
  rcases hcl with h | h | h <;> simp only [step, h, applyAction] <;>
    try rfl
  rw [hfin]
  cases st
  simp_all

/-- A stopped state with no live question absorbs any remaining lines. -/
theorem foldl_step_stopped (st : PState) (h1 : st.stopped = true)
    (h2 : st.current = none) : ∀ rest : List VLine, rest.foldl step st = st := by
  intro rest
  induction rest with
  | nil => rfl
  | cons a t ih =>
    rw [List.foldl_cons, step_stopped_id st a h1 h2]
    exact ih

/-- A stop line latches the stop flag and clears the live question, whatever
state the parser is in (given the running invariant that a stopped state has
no live question). -/
theorem step_stop_latch (vl : VLine) (st : PState)
    (hstop : isStopLine (strip vl.text) = true)
    (hinv : st.stopped = true → st.current = none) :
    (step st vl).stopped = true ∧ (step st vl).current = none := by
  by_cases h1 : st.stopped = true
  · rw [step_stopped_id st vl h1 (hinv h1)]
    exact ⟨h1, hinv h1⟩
  · have hb : strip vl.text ≠ [] := by
      intro he
      rw [he] at hstop
      exact absurd hstop (by decide)
    have hcl : classify st vl.text = .stopA := by
      unfold classify
      by_cases hs : stopMatch (strip vl.text) = true
      · simp [hb, hs]
      · have hsol : containsSolutionColon (strip vl.text) = true := by
          unfold isStopLine at hstop
          simp [hs] at hstop
          exact hstop
        have h1' : st.stopped = false := by simpa using h1
        simp [hb, hs, hsol, h1']
    have hstep : step st vl = { finishQuestion st with stopped := true } := by
      rw [step, hcl]
      rfl
    rw [hstep]
    refine ⟨rfl, ?_⟩
    show (finishQuestion st).current = none
    unfold finishQuestion
    rcases hc : st.current with _ | q <;> simp [hc]

/-- The running invariant: a stopped parser state has no live question. -/
theorem step_inv (st : PState) (vl : VLine)
    (h : st.stopped = true → st.current = none) :
    (step st vl).stopped = true → (step st vl).current = none := by
  by_cases h1 : st.stopped = true
  · rw [step_stopped_id st vl h1 (h h1)]
    exact h
  · intro hs
    rcases hcl : classify st vl.text with _ | _ | _ | _ | ⟨k, n, b⟩ | ⟨k, t⟩ | _
    · rw [step, hcl, applyAction_stopped st vl Action.blank (by simp)] at hs
      exact absurd hs h1
    · have hstep : step st vl = { finishQuestion st with stopped := true } := by
        rw [step, hcl]
        rfl
      rw [hstep]
      show (finishQuestion st).current = none
      unfold finishQuestion
      rcases hc : st.current with _ | q <;> simp [hc]
    · rw [step, hcl, applyAction_stopped st vl Action.skipStopped (by simp)] at hs
      exact absurd hs h1
    · rw [step, hcl, applyAction_stopped st vl Action.noise (by simp)] at hs
      exact absurd hs h1
    · rw [step, hcl, applyAction_stopped st vl (Action.header k n b) (by simp)] at hs
      exact absurd hs h1
    · rw [step, hcl, applyAction_stopped st vl (Action.option k t) (by simp)] at hs
      exact absurd hs h1
    · rw [step, hcl, applyAction_stopped st vl Action.fallthru (by simp)] at hs
      exact absurd hs h1

/-- The invariant holds along any fold from the initial state. -/
theorem foldl_step_inv (l : List VLine) :
    ∀ st : PState, (st.stopped = true → st.current = none) →
      ((l.foldl step st).stopped = true → (l.foldl step st).current = none) := by
  induction l with
  | nil => exact fun st h => h
  | cons a t ih =>
    intro st h
    rw [List.foldl_cons]
    exact ih (step st a) (step_inv st a h)

/-- Claim C7: once a line matches a stop pattern or contains `solution:`,
the current question is finalised and the latch set — the parse of the whole
input equals the parse truncated right after the stop line; no later line
creates, extends or emits any record. -/
theorem c7_stop_latches (vl : VLine) (pre rest : List VLine)
    (h : isStopLine (strip vl.text) = true) :
    parse_questions_from_lines (pre ++ vl :: rest) =
      parse_questions_from_lines (pre ++ [vl]) := by
  unfold parse_questions_from_lines
  rw [List.foldl_append, List.foldl_append]
  have hinv := foldl_step_inv pre initPState (by intro h'; exact absurd h' (by decide))
  simp only [List.foldl_cons, List.foldl_nil]
  obtain ⟨hs, hc⟩ := step_stop_latch vl (pre.foldl step initPState) h hinv
  rw [foldl_step_stopped _ hs hc rest]

/-- Witness for C7 on the spec's stop-marker scenario. -/
theorem c7_stop_latches_witness :
    isStopLine (strip (mkVL "Answer Key" 60 70 0).text) = true ∧
    parse_questions_from_lines
        ([mkVL "3. Q text" 0 10 0, mkVL "A) x" 20 30 0, mkVL "B) y" 40 50 0] ++
          mkVL "Answer Key" 60 70 0 :: [mkVL "4. Q2" 80 90 0]) =
      parse_questions_from_lines
        ([mkVL "3. Q text" 0 10 0, mkVL "A) x" 20 30 0, mkVL "B) y" 40 50 0] ++
          [mkVL "Answer Key" 60 70 0]) :=
  ⟨by decide, c7_stop_latches _ _ _ (by decide)⟩

/-- Counterexample to claim C5: in a run with images present, the second
record gets a `question_image` from the screenshot pass (taken for every
record) while `has_diagram` stays 0, so the claimed equivalence fails. -/
theorem c5_counterexample :
    ((parse_with_diagram_info twoQLines oneImg onePage).get? 1).map
        (fun q => (q.has_diagram, q.question_image.isSome)) = some (0, true) ∧
    oneImg ≠ [] := by decide

/-! Slot-access lemmas. -/

theorem getOpt_setOpt (q : Question) (k k' : OptKey) (v : Option Str) :
    (q.setOpt k' v).getOpt k = if k = k' then v else q.getOpt k := by
  cases k <;> cases k' <;> simp [Question.getOpt, Question.setOpt]

theorem getOpt_setOptY (q : Question) (k k' : OptKey) (v : Option ℚ) :
    (q.setOptY k' v).getOpt k = q.getOpt k := by
  cases k <;> cases k' <;> rfl

theorem getOpt_setYEnd (q : Question) (b : ℚ) (k : OptKey) :
    ({ q with y_end := b } : Question).getOpt k = q.getOpt k := by
  cases k <;> rfl

theorem setOpt_y_end (q : Question) (k : OptKey) (v : Option Str) :
    (q.setOpt k v).y_end = q.y_end := by
  cases k <;> rfl

theorem setOptY_y_end (q : Question) (k : OptKey) (v : Option ℚ) :
    (q.setOptY k v).y_end = q.y_end := by
  cases k <;> rfl

/-- Amended claim C1: while a question is live, an option line never changes
a slot that already holds non-empty text — the falsiness guard only lets an
empty slot (absent or empty string) be (re)assigned.  Emitted records are
also untouched by an option line. -/
theorem c1_amended_nonempty_slot_stable (st : PState) (vl : VLine)
    (q : Question) (k : OptKey) (s : Str) (m : OptMatch) (t : Str)
    (hcur : st.current = some q)
    (ha : classify st vl.text = .option m t)
    (hk : q.getOpt k = some s) (hs : s ≠ []) :
    (step st vl).questions = st.questions ∧
    ∃ q2, (step st vl).current = some q2 ∧ q2.getOpt k = some s := by
  have hfalsy : pyFalsy (q.getOpt k) = false := by
    rw [hk]
    simpa [pyFalsy] using hs
  rw [step, ha]
  rcases m with key | _
  · simp only [applyAction, hcur, Option.map_some']
    by_cases hf : pyFalsy (({ q with y_end := vl.bottom } : Question).getOpt key) = true
    · have hkey : k ≠ key := by
        intro he
        rw [← he, getOpt_setYEnd] at hf
        rw [hfalsy] at hf
        cases hf
      rw [if_pos hf]
      split
      · refine ⟨rfl, _, rfl, ?_⟩
        rw [getOpt_setOptY, getOpt_setOpt]
        rw [if_neg hkey, getOpt_setYEnd]
        exact hk
      · refine ⟨rfl, _, rfl, ?_⟩
        rw [getOpt_setOpt, if_neg hkey, getOpt_setYEnd]
        exact hk
    · rw [if_neg hf]
      refine ⟨rfl, _, rfl, ?_⟩
      rw [getOpt_setYEnd]
      exact hk
  · have hkf : pyFalsy (({ q with y_end := vl.bottom } : Question).getOpt k) = false := by
      rw [getOpt_setYEnd]
      exact hfalsy
    rcases hfind : optKeys.find?
        (fun kk => pyFalsy (({ q with y_end := vl.bottom } : Question).getOpt kk)) with _ | key
    · simp only [applyAction, hcur, Option.map_some', assignBulletOption, hfind]
      refine ⟨trivial, _, rfl, ?_⟩
      rw [getOpt_setYEnd]
      exact hk
    · have hkeyf := List.find?_some hfind
      have hne : k ≠ key := by
        intro he
        rw [← he] at hkeyf
        rw [hkf] at hkeyf
        cases hkeyf
      simp only [applyAction, hcur, Option.map_some', assignBulletOption, hfind]
      split
      · refine ⟨trivial, _, rfl, ?_⟩
        rw [getOpt_setOptY, getOpt_setOpt, if_neg hne, getOpt_setYEnd]
        exact hk
      · refine ⟨trivial, _, rfl, ?_⟩
        rw [getOpt_setOpt, if_neg hne, getOpt_setYEnd]
        exact hk

/-- Witness for amended C1: a second `A)` line does not overwrite the
non-empty option a of the live question. -/
theorem c1_amended_witness :
    (step liveSt (mkVL "A) baz" 40 50 0)).questions = liveSt.questions ∧
    ∃ q2, (step liveSt (mkVL "A) baz" 40 50 0)).current = some q2 ∧
      q2.getOpt .a = some "bar".toList :=
  c1_amended_nonempty_slot_stable liveSt (mkVL "A) baz" 40 50 0) liveQ .a
    "bar".toList (.slot .a) "baz".toList rfl (by decide) rfl (by decide)

/-! Inversion lemmas for the per-line classification. -/

theorem classifyTail_isLate (st : PState) (l : Str) (ctx : Bool)
    (ro : Option Str) : isLateAction (classify.classifyTail st l ctx ro) = true := by
  have hro : ∀ a : Action,
      (ro.bind fun g => if g ≠ [] then
        some (Action.header HeaderKind.romanOnly (g.map Char.toUpper) []) else none) =
        some a → isLateAction a = true := by
    intro a ha
    rcases ro with _ | g
    · cases ha
    · rw [Option.some_bind] at ha
      split at ha
      · cases ha
        rfl
      · cases ha
  unfold classify.classifyTail
  dsimp only
  split
  · exact hro _ (by assumption)
  · unfold classify.classifyTail2
    repeat' split
    all_goals rfl

theorem classify_blank_inv (st : PState) (l : Str)
    (h : classify st l = .blank) : strip l = [] := by
  by_contra hne
  unfold classify at h
  rw [if_neg hne] at h
  dsimp only at h
  repeat' split at h
  all_goals try (simp at h)
  all_goals
    exact absurd (congrArg isLateAction h)
      (by simp only [classifyTail_isLate]; decide)

theorem classify_stopA_inv (st : PState) (l : Str)
    (h : classify st l = .stopA) : isStopLine (strip l) = true := by
  unfold classify at h
  by_cases hb : strip l = []
  · rw [if_pos hb] at h
    exact absurd h (by simp)
  · rw [if_neg hb] at h
    by_cases hs : stopMatch (strip l) = true
    · simp [isStopLine, hs]
    · rw [if_neg (by simpa using hs)] at h
      by_cases hsol : containsSolutionColon (strip l) = true
      · simp [isStopLine, hsol]
      · rw [if_neg (by simp [hsol])] at h
        split at h
        · exact absurd h (by simp)
        · split at h
          · exact absurd h (by simp)
          · dsimp only at h
            repeat' split at h
            all_goals try (simp at h)
            all_goals
              exact absurd (congrArg isLateAction h)
                (by simp only [classifyTail_isLate]; decide)

theorem classify_skip_inv (st : PState) (l : Str)
    (h : classify st l = .skipStopped) : st.stopped = true := by
  by_contra hstp
  unfold classify at h
  dsimp only at h
  repeat' split at h
  all_goals try (exact absurd ‹st.stopped = true› hstp)
  all_goals try (simp at h)
  all_goals
    exact absurd (congrArg isLateAction h)
      (by simp only [classifyTail_isLate]; decide)

theorem classify_noise_inv (st : PState) (l : Str)
    (h : classify st l = .noise) : noiseMatch (strip l) = true := by
  unfold classify at h
  dsimp only at h
  repeat' split at h
  all_goals try assumption
  all_goals try (simp at h)
  all_goals
    exact absurd (congrArg isLateAction h)
      (by simp only [classifyTail_isLate]; decide)

/-- Number captures of `0?\d{1,3}` consist of digits. -/
theorem numCapture_all_digits (l cap r : Str)
    (h : numCapture l = some (cap, r)) : cap.all Char.isDigit = true := by
  unfold numCapture at h
  dsimp only at h
  split at h
  · cases h
  · rw [Option.some.injEq, Prod.mk.injEq] at h
    rw [← h.1]
    rw [List.all_eq_true]
    intro c hc
    have hc2 : c ∈ l.takeWhile Char.isDigit := by
      have := List.take_subset _ _ hc
      exact this
    exact List.mem_takeWhile_imp hc2

/-- Number group of QUESTION_PREFIXED consists of digits. -/
theorem qPrefixedMatch_all_digits (l n r : Str)
    (h : qPrefixedMatch l = some (n, r)) : n.all Char.isDigit = true := by
  unfold qPrefixedMatch at h
  rw [Option.bind_eq_some] at h
  obtain ⟨r1, _, h2⟩ := h
  rw [Option.bind_eq_some] at h2
  obtain ⟨⟨cap, r2⟩, hnum, h3⟩ := h2
  rw [Option.some.injEq, Prod.mk.injEq] at h3
  rw [← h3.1]
  exact numCapture_all_digits _ _ _ hnum

/-- Number group of QUESTION_BARE_NUM consists of digits. -/
theorem qBareNumMatch_all_digits (l n r : Str)
    (h : qBareNumMatch l = some (n, r)) : n.all Char.isDigit = true := by
  unfold qBareNumMatch at h
  rw [Option.bind_eq_some] at h
  obtain ⟨⟨cap, r2⟩, hnum, h3⟩ := h
  rw [Option.map_eq_some'] at h3
  obtain ⟨b, _, h4⟩ := h3
  rw [Prod.mk.injEq] at h4
  rw [← h4.1]
  exact numCapture_all_digits _ _ _ hnum

/-- Auxiliary inversion: the final dispatch step never yields a numeric
header. -/
theorem classifyTail2_numeric_false (qo : Option (Str × Str))
    (opt : Option (OptMatch × Str)) (n b : Str) :
    classify.classifyTail2 qo opt ≠ .header .numeric n b := by
  unfold classify.classifyTail2
  repeat' split
  all_goals simp

/-- Auxiliary inversion: an OCR header out of the final dispatch step comes
from its OCR candidate. -/
theorem classifyTail2_ocr_inv (qo : Option (Str × Str))
    (opt : Option (OptMatch × Str)) (n b : Str)
    (h : classify.classifyTail2 qo opt = .header .ocr n b) : qo = some (n, b) := by
  unfold classify.classifyTail2 at h
  split at h
  · rw [Action.header.injEq] at h
    obtain ⟨-, h1, h2⟩ := h
    subst h1
    subst h2
    rfl
  · split at h
    · cases h
    · cases h

/-- Inversion through the roman-only header candidate at the head of the
dispatch tail. -/
theorem romOnlyHdr_shape (ro : Option Str) (a : Action)
    (ha : (ro.bind fun g => if g ≠ [] then
      some (Action.header HeaderKind.romanOnly (g.map Char.toUpper) []) else none) =
      some a) : ∃ g, a = Action.header HeaderKind.romanOnly g [] := by
  rcases ro with _ | g
  · cases ha
  · rw [Option.some_bind] at ha
    split at ha
    · cases ha
      exact ⟨_, rfl⟩
    · cases ha

/-- Validity of the number of a successful IDLE-state OCR candidate. -/
theorem ocrCand_valid (l : Str) (c : Prop) [Decidable c] (n b : Str)
    (h : (if c then
        (qOcrSpacedMatch l).bind fun p =>
          if isValidQuestionStart (List.filter (fun x => decide (x ≠ ' ')) p.1) = true then
            some (List.filter (fun x => decide (x ≠ ' ')) p.1, strip p.2)
          else none
      else none) = some (n, b)) : isValidQuestionStart n = true := by
  split at h
  · rw [Option.bind_eq_some] at h
    obtain ⟨p, _, hif⟩ := h
    split at hif
    · rename_i hvalid
      rw [Option.some.injEq, Prod.mk.injEq] at hif
      rw [← hif.1]
      exact hvalid
    · cases hif
  · cases h

/-- Dispatch-tail inversion for numeric headers: the number passed the
200-bound validity check and is a digit string of one of the two numeric
patterns. -/
theorem classifyTail_numeric_valid (st : PState) (l : Str) (ctx : Bool)
    (ro : Option Str) (n b : Str)
    (h : classify.classifyTail st l ctx ro = .header .numeric n b) :
    isValidQuestionStart n = true ∧ n.all Char.isDigit = true := by
  unfold classify.classifyTail at h
  dsimp only at h
  split at h
  · obtain ⟨g, hg⟩ := romOnlyHdr_shape ro _ (by assumption)
    rw [hg] at h
    cases h
  · split at h
    · simp at h
    · split at h
      · split at h
        · rename_i n' rest' hchain hrest
          rw [Action.header.injEq] at h
          obtain ⟨-, hn, -⟩ := h
          subst hn
          rw [Option.bind_eq_some] at hchain
          obtain ⟨p3, hc3, hf4⟩ := hchain
          rw [Option.bind_eq_some] at hc3
          obtain ⟨p2, hc2, hf3⟩ := hc3
          rw [Option.bind_eq_some] at hc2
          obtain ⟨p1, hc1, hf2⟩ := hc2
          rw [Option.bind_eq_some] at hc1
          obtain ⟨p0, hc0, hf1⟩ := hc1
          split at hf4 <;> try (cases hf4)
          split at hf3 <;> try (cases hf3)
          split at hf2 <;> try (cases hf2)
          split at hf1 <;> try (cases hf1)
          constructor
          · assumption
          · rcases hq : qPrefixedMatch l with _ | p'
            · rw [hq] at hc0
              simp [Option.orElse] at hc0
              exact qBareNumMatch_all_digits _ _ _ hc0
            · rw [hq] at hc0
              simp [Option.orElse] at hc0
              cases hc0
              exact qPrefixedMatch_all_digits _ _ _ hq
        · exact absurd h (classifyTail2_numeric_false _ _ _ _)
      · exact absurd h (classifyTail2_numeric_false _ _ _ _)

/-- Dispatch-tail inversion for OCR-spaced headers: the collapsed number
passed the validity check. -/
theorem classifyTail_ocr_valid (st : PState) (l : Str) (ctx : Bool)
    (ro : Option Str) (n b : Str)
    (h : classify.classifyTail st l ctx ro = .header .ocr n b) :
    isValidQuestionStart n = true := by
  unfold classify.classifyTail at h
  dsimp only at h
  split at h
  · obtain ⟨g, hg⟩ := romOnlyHdr_shape ro _ (by assumption)
    rw [hg] at h
    cases h
  · split at h
    · simp at h
    · split at h
      · split at h
        · simp at h
        · exact ocrCand_valid l _ n b (classifyTail2_ocr_inv _ _ _ _ h)
      · exact ocrCand_valid l _ n b (classifyTail2_ocr_inv _ _ _ _ h)

/-- Amended claim C2: headers created through the numeric patterns
(QUESTION_PREFIXED with body, QUESTION_BARE_NUM) carry a digit number of
value at most 200, and headers created through the OCR-spaced pattern pass
`_is_valid_question_start` on the collapsed digits; the number-only
QNUM_ONLY form is the one header kind the bound does not guard (see the
counterexample). -/
theorem c2_amended_numeric_headers_bounded (st : PState) (l n b : Str) :
    (classify st l = .header .numeric n b →
      n.all Char.isDigit = true ∧ digitsVal n ≤ 200) ∧
    (classify st l = .header .ocr n b → isValidQuestionStart n = true) := by
  have key : ∀ hk : HeaderKind, classify st l = .header hk n b →
      (hk = .numeric → isValidQuestionStart n = true ∧ n.all Char.isDigit = true) ∧
      (hk = .ocr → isValidQuestionStart n = true) := by
    intro hk h
    unfold classify at h
    dsimp only at h
    repeat' split at h
    all_goals try (cases h)
    -- roman-header branch
    · constructor
      · intro he
        cases he
      · intro he
        cases he
    -- dispatch-tail branches
    all_goals constructor
    all_goals intro he
    all_goals subst he
    · exact classifyTail_numeric_valid _ _ _ _ _ _ h
    · exact classifyTail_ocr_valid _ _ _ _ _ _ h
    · exact classifyTail_numeric_valid _ _ _ _ _ _ h
    · exact classifyTail_ocr_valid _ _ _ _ _ _ h
  constructor
  · intro h
    obtain ⟨hkn, _⟩ := key .numeric h
    obtain ⟨hv, hd⟩ := hkn rfl
    refine ⟨hd, ?_⟩
    unfold isValidQuestionStart at hv
    rw [if_pos hd] at hv
    simpa using hv
  · intro h
    exact (key .ocr h).2 rfl

/-- Witness for amended C2: the ordinary bare header `5. What` classifies as
a numeric header with a digit number bounded by 200. -/
theorem c2_amended_witness :
    ("5".toList).all Char.isDigit = true ∧ digitsVal "5".toList ≤ 200 :=
  (c2_amended_numeric_headers_bounded initPState "5. What".toList
    "5".toList "What".toList).1 (by decide)

/-- Amended claim C3: every non-blank, non-stop, non-noise line processed
while a question is live sets that record's `_y_end` to the line's bottom —
including the next question's header line, in which case the record is
finalised and emitted with exactly that `_y_end`.  (Noise and stop lines
never perform the update; blank lines are skipped.) -/
theorem c3_amended_y_end_update (st : PState) (vl : VLine) (q : Question)
    (hstop : st.stopped = false) (hcur : st.current = some q)
    (hne : strip vl.text ≠ [])
    (hnstop : isStopLine (strip vl.text) = false)
    (hnoise : noiseMatch (strip vl.text) = false) :
    ((step st vl).questions = st.questions ∧
      ∃ q2, (step st vl).current = some q2 ∧ q2.y_end = vl.bottom) ∨
    (∃ q2, (step st vl).questions = st.questions ++ [q2] ∧
      q2.y_end = vl.bottom) := by
  rcases hcl : classify st vl.text with _ | _ | _ | _ | ⟨hk, n, b⟩ | ⟨m, t⟩ | _
  · exact absurd (classify_blank_inv st vl.text hcl) hne
  · exact absurd (classify_stopA_inv st vl.text hcl) (by simp [hnstop])
  · exact absurd (classify_skip_inv st vl.text hcl) (by simp [hstop])
  · exact absurd (classify_noise_inv st vl.text hcl) (by simp [hnoise])
  · right
    rw [step, hcl]
    simp only [applyAction, hcur, Option.map_some']
    unfold finishQuestion
    exact ⟨_, rfl, rfl⟩
  · left
    rw [step, hcl]
    rcases m with key | _
    · simp only [applyAction, hcur, Option.map_some']
      split
      · split
        · exact ⟨by trivial, _, rfl, by rw [setOptY_y_end, setOpt_y_end]⟩
        · exact ⟨by trivial, _, rfl, by rw [setOpt_y_end]⟩
      · exact ⟨by trivial, _, rfl, rfl⟩
    · rcases hfind : optKeys.find?
          (fun kk => pyFalsy (({ q with y_end := vl.bottom } : Question).getOpt kk)) with _ | key
      · simp only [applyAction, hcur, Option.map_some', assignBulletOption, hfind]
        exact ⟨by trivial, _, rfl, rfl⟩
      · simp only [applyAction, hcur, Option.map_some', assignBulletOption, hfind]
        split
        · exact ⟨by trivial, _, rfl, by rw [setOptY_y_end, setOpt_y_end]⟩
        · exact ⟨by trivial, _, rfl, by rw [setOpt_y_end]⟩
  · left
    rw [step, hcl]
    rcases hstt : st.state with _ | _ | _
    · simp only [applyAction, hcur, Option.map_some', hstt]
      exact ⟨by trivial, _, rfl, rfl⟩
    · simp only [applyAction, hcur, Option.map_some', hstt]
      exact ⟨by trivial, _, rfl, rfl⟩
    · rcases hlk : st.last_option_key with _ | key
      · simp only [applyAction, hcur, Option.map_some', hstt, hlk]
        exact ⟨by trivial, _, rfl, rfl⟩
      · simp only [applyAction, hcur, Option.map_some', hstt, hlk]
        split
        · exact ⟨by trivial, _, rfl, by rw [setOpt_y_end]⟩
        · split
          · exact ⟨by trivial, _, rfl, by rw [setOpt_y_end]⟩
          · exact ⟨by trivial, _, rfl, rfl⟩

/-- Witness for amended C3: a continuation line below `liveQ` updates its
`_y_end` to the line's bottom (50). -/
theorem c3_amended_witness :
    ((step liveSt (mkVL "more text" 40 50 0)).questions = liveSt.questions ∧
      ∃ q2, (step liveSt (mkVL "more text" 40 50 0)).current = some q2 ∧
        q2.y_end = (mkVL "more text" 40 50 0).bottom) ∨
    (∃ q2, (step liveSt (mkVL "more text" 40 50 0)).questions =
        liveSt.questions ++ [q2] ∧ q2.y_end = (mkVL "more text" 40 50 0).bottom) :=
  c3_amended_y_end_update liveSt (mkVL "more text" 40 50 0) liveQ rfl rfl
    (by decide) (by decide) (by decide)

/-- Accumulator-general lower bound of the best-candidate scan: the final
best distance undercuts every listed candidate and the incoming best. -/
theorem bestScanAux_le (l : List (Option ℚ)) : ∀ (i : Nat)
    (best : Option (Nat × ℚ)) (j : Nat) (d : ℚ),
    bestScanAux i best l = some (j, d) →
    (∀ k d', l.get? k = some (some d') → d ≤ d') ∧
    (∀ bi bd, best = some (bi, bd) → d ≤ bd) := by
  induction l with
  | nil =>
    intro i best j d h
    rw [bestScanAux.eq_def] at h
    dsimp only at h
    constructor
    · intro k d' hk
      rw [List.get?_nil] at hk
      cases hk
    · intro bi bd hb
      rw [hb, Option.some.injEq, Prod.mk.injEq] at h
      exact le_of_eq h.2.symm
  | cons c rest ih =>
    intro i best j d h
    rw [bestScanAux.eq_def] at h
    dsimp only at h
    rcases c with _ | cd
    · obtain ⟨ihA, ihB⟩ := ih (i + 1) best j d h
      refine ⟨?_, ihB⟩
      intro k d' hk
      match k, hk with
      | 0, hk => rw [List.get?_cons_zero, Option.some.injEq] at hk; cases hk
      | k + 1, hk => exact ihA k d' (by rw [List.get?_cons_succ] at hk; exact hk)
    · rcases best with _ | ⟨bi, bd⟩
      · obtain ⟨ihA, ihB⟩ := ih (i + 1) (some (i, cd)) j d h
        refine ⟨?_, ?_⟩
        · intro k d' hk
          match k, hk with
          | 0, hk =>
            rw [List.get?_cons_zero, Option.some.injEq, Option.some.injEq] at hk
            rw [← hk]
            exact ihB i cd rfl
          | k + 1, hk => exact ihA k d' (by rw [List.get?_cons_succ] at hk; exact hk)
        · intro bi bd hb
          cases hb
      · dsimp only at h
        by_cases hlt : cd < bd
        · rw [if_pos hlt] at h
          obtain ⟨ihA, ihB⟩ := ih (i + 1) (some (i, cd)) j d h
          refine ⟨?_, ?_⟩
          · intro k d' hk
            match k, hk with
            | 0, hk =>
              rw [List.get?_cons_zero, Option.some.injEq, Option.some.injEq] at hk
              rw [← hk]
              exact ihB i cd rfl
            | k + 1, hk => exact ihA k d' (by rw [List.get?_cons_succ] at hk; exact hk)
          · intro bi' bd' hb
            rw [Option.some.injEq, Prod.mk.injEq] at hb
            rw [← hb.2]
            exact le_of_lt (lt_of_le_of_lt (ihB i cd rfl) hlt)
        · rw [if_neg hlt] at h
          obtain ⟨ihA, ihB⟩ := ih (i + 1) (some (bi, bd)) j d h
          refine ⟨?_, ?_⟩
          · intro k d' hk
            match k, hk with
            | 0, hk =>
              rw [List.get?_cons_zero, Option.some.injEq, Option.some.injEq] at hk
              rw [← hk]
              exact le_trans (ihB bi bd rfl) (le_of_not_lt hlt)
            | k + 1, hk => exact ihA k d' (by rw [List.get?_cons_succ] at hk; exact hk)
          · intro bi' bd' hb
            rw [Option.some.injEq, Prod.mk.injEq] at hb
            rw [← hb.2]
            exact ihB bi bd rfl

/-- Accumulator-general origin of the best-candidate scan: the final best is
either the untouched incoming best, or a listed candidate that strictly
undercuts every earlier listed candidate and the incoming best. -/
theorem bestScanAux_first (l : List (Option ℚ)) : ∀ (i : Nat)
    (best : Option (Nat × ℚ)) (j : Nat) (d : ℚ),
    bestScanAux i best l = some (j, d) →
    best = some (j, d) ∨
    ∃ k, j = i + k ∧ l.get? k = some (some d) ∧
      (∀ m d', m < k → l.get? m = some (some d') → d < d') ∧
      (∀ bi bd, best = some (bi, bd) → d < bd) := by
  induction l with
  | nil =>
    intro i best j d h
    rw [bestScanAux.eq_def] at h
    dsimp only at h
    exact Or.inl h
  | cons c rest ih =>
    intro i best j d h
    rw [bestScanAux.eq_def] at h
    dsimp only at h
    rcases c with _ | cd
    · rcases ih (i + 1) best j d h with hb | ⟨k, hik, hlk, hmin, hbest⟩
      · exact Or.inl hb
      · refine Or.inr ⟨k + 1, by omega, by rw [List.get?_cons_succ]; exact hlk, ?_, hbest⟩
        intro m d' hm hget
        match m, hget with
        | 0, hget =>
          rw [List.get?_cons_zero, Option.some.injEq] at hget
          cases hget
        | m + 1, hget =>
          rw [List.get?_cons_succ] at hget
          exact hmin m d' (by omega) hget
    · rcases best with _ | ⟨bi, bd⟩
      · rcases ih (i + 1) (some (i, cd)) j d h with hb | ⟨k, hik, hlk, hmin, hbest⟩
        · rw [Option.some.injEq, Prod.mk.injEq] at hb
          refine Or.inr ⟨0, by omega, ?_, ?_, ?_⟩
          · rw [List.get?_cons_zero, hb.2]
          · intro m d' hm hget
            omega
          · intro bi' bd' hb'
            cases hb'
        · refine Or.inr ⟨k + 1, by omega, by rw [List.get?_cons_succ]; exact hlk, ?_, ?_⟩
          · intro m d' hm hget
            match m, hget with
            | 0, hget =>
              rw [List.get?_cons_zero, Option.some.injEq, Option.some.injEq] at hget
              rw [← hget]
              exact hbest i cd rfl
            | m + 1, hget =>
              rw [List.get?_cons_succ] at hget
              exact hmin m d' (by omega) hget
          · intro bi' bd' hb'
            cases hb'
      · dsimp only at h
        by_cases hlt : cd < bd
        · rw [if_pos hlt] at h
          rcases ih (i + 1) (some (i, cd)) j d h with hb | ⟨k, hik, hlk, hmin, hbest⟩
          · rw [Option.some.injEq, Prod.mk.injEq] at hb
            refine Or.inr ⟨0, by omega, ?_, ?_, ?_⟩
            · rw [List.get?_cons_zero, hb.2]
            · intro m d' hm hget
              omega
            · intro bi' bd' hb'
              rw [Option.some.injEq, Prod.mk.injEq] at hb'
              rw [← hb'.2, ← hb.2]
              exact hlt
          · refine Or.inr ⟨k + 1, by omega, by rw [List.get?_cons_succ]; exact hlk, ?_, ?_⟩
            · intro m d' hm hget
              match m, hget with
              | 0, hget =>
                rw [List.get?_cons_zero, Option.some.injEq, Option.some.injEq] at hget
                rw [← hget]
                exact hbest i cd rfl
              | m + 1, hget =>
                rw [List.get?_cons_succ] at hget
                exact hmin m d' (by omega) hget
            · intro bi' bd' hb'
              rw [Option.some.injEq, Prod.mk.injEq] at hb'
              rw [← hb'.2]
              exact lt_trans (hbest i cd rfl) hlt
        · rw [if_neg hlt] at h
          rcases ih (i + 1) (some (bi, bd)) j d h with hb | ⟨k, hik, hlk, hmin, hbest⟩
          · exact Or.inl hb
          · refine Or.inr ⟨k + 1, by omega, by rw [List.get?_cons_succ]; exact hlk, ?_, hbest⟩
            intro m d' hm hget
            match m, hget with
            | 0, hget =>
              rw [List.get?_cons_zero, Option.some.injEq, Option.some.injEq] at hget
              rw [← hget]
              exact lt_of_lt_of_le (hbest bi bd rfl) (le_of_not_lt hlt)
            | m + 1, hget =>
              rw [List.get?_cons_succ] at hget
              exact hmin m d' (by omega) hget

/-- A successful best-candidate scan returns the earliest candidate of
minimal distance: earlier candidates are strictly farther, all candidates
are at least as far. -/
theorem bestScan_first (l : List (Option ℚ)) (j : Nat) (d : ℚ)
    (h : bestScan l = some (j, d)) :
    l.get? j = some (some d) ∧
    (∀ m d', m < j → l.get? m = some (some d') → d < d') ∧
    (∀ k d', l.get? k = some (some d') → d ≤ d') := by
  have hA := (bestScanAux_le l 0 none j d h).1
  rcases bestScanAux_first l 0 none j d h with hb | ⟨k, hik, hlk, hmin, -⟩
  · cases hb
  · have hjk : j = k := by omega
    subst hjk
    exact ⟨hlk, fun m d' hm hget => hmin m d' hm hget, hA⟩

/-- The attachment target is the winner of the best-candidate scan over the
deciding pass's candidate list. -/
theorem attachTarget_cands (qs : List Question) (cy : ℚ) (j : Nat)
    (h : attachTarget qs cy = some j) :
    ∃ d, bestScan (attachCands qs cy) = some (j, d) := by
  unfold attachTarget at h
  unfold attachCands
  rcases ht : bestScan (qs.map (tolCand cy)) with _ | ⟨i, d⟩
  · rw [ht] at h
    dsimp only at h
    rw [if_neg]
    · rcases hf : bestScan (qs.map (fbCand cy)) with _ | ⟨i', d'⟩
      · rw [hf] at h
        simp at h
      · rw [hf, Option.map_some'] at h
        rw [Option.some.injEq] at h
        exact ⟨d', by rw [← h]⟩
    · decide
  · rw [ht] at h
    dsimp only at h
    rw [Option.some.injEq] at h
    rw [if_pos]
    · exact ⟨d, by rw [ht, h]⟩
    · rfl

/-- Claim C10: when an image centre is at equal minimal distance from two or
more candidate questions — in the tolerance pass as well as in the global
fallback pass — the image attaches to the question earliest in emission
order: the winning index carries a distance strictly below every earlier
eligible candidate and no greater than any candidate, because only a
strictly smaller distance displaces the current best. -/
theorem c10_earliest_on_tie (qs : List Question) (cy : ℚ) (j : Nat)
    (h : attachTarget qs cy = some j) :
    ∃ d, (attachCands qs cy).get? j = some (some d) ∧
      (∀ m d', m < j → (attachCands qs cy).get? m = some (some d') → d < d') ∧
      (∀ k d', (attachCands qs cy).get? k = some (some d') → d ≤ d') := by
  obtain ⟨d, hb⟩ := attachTarget_cands qs cy j h
  obtain ⟨h1, h2, h3⟩ := bestScan_first _ _ _ hb
  exact ⟨d, h1, h2, h3⟩

/-- Witness for C10: with `demoQ` and `demoQ2` both eligible for an image
centred at 50, the earlier question (index 0) wins. -/
theorem c10_earliest_on_tie_witness :
    attachTarget [demoQ, demoQ2] 50 = some 0 ∧
    ∃ d, (attachCands [demoQ, demoQ2] 50).get? 0 = some (some d) ∧
      (∀ m d', m < 0 → (attachCands [demoQ, demoQ2] 50).get? m = some (some d') → d < d') ∧
      (∀ k d', (attachCands [demoQ, demoQ2] 50).get? k = some (some d') → d ≤ d') :=
  ⟨by decide, c10_earliest_on_tie [demoQ, demoQ2] 50 0 (by decide)⟩

/-- The recorded anchors come out of `optYPresent` already in alphabetical
key order, so the alphabetical sort of the promotion pass leaves them
unchanged. -/
theorem sortByKeyAlpha_optYPresent (q : Question) :
    sortByKeyAlpha (optYPresent q) = optYPresent q := by
  rcases ha : q.opt_y_a with _ | ya <;> rcases hb : q.opt_y_b with _ | yb <;>
    rcases hc : q.opt_y_c with _ | yc <;> rcases hd : q.opt_y_d with _ | yd <;>
    simp [optYPresent, optKeys, Question.getOptY, sortByKeyAlpha, sortedBy,
      insertSorted, keyIdx, ha, hb, hc, hd]

/-- Amended claim C4: per-option promotion processes the letters sorted
ALPHABETICALLY (`sorted(opt_y.keys())`), not by anchor Y; ranges run from a
letter's anchor to the next listed letter's anchor (or `_y_end + 150` for
the last); an image is given to the first letter in that alphabetical order
whose range `[y_s − 20, y_e]` contains its centre, claimed only into an
empty slot, and unclaimed paths stay in `image_path`. -/
theorem c4_amended_alpha_promotion (pathCoords : Str → Option (ℚ × ℚ))
    (q : Question) : promoteQ pathCoords q = promoteQAmended pathCoords q := by
  unfold promoteQ promoteQAmended
  rw [sortByKeyAlpha_optYPresent]

set_option maxRecDepth 100000 in
/-- Exhaustive check: every 1-to-3-digit string defeats every classifier
pattern. -/
theorem all_digitStrs3_safe : List.all digitStrs3 bareDigitsSafe = true := by
  decide

/-- A digit character is one of the ten digit characters. -/
theorem digit_mem_digitChars (c : Char) (h : c.isDigit = true) :
    c ∈ digitChars := by
  rw [Char.isDigit, Bool.and_eq_true, decide_eq_true_eq, decide_eq_true_eq] at h
  obtain ⟨h1, h2⟩ := h
  have n1 : 48 ≤ c.val.toNat := h1
  have n2 : c.val.toNat ≤ 57 := h2
  have hc : ∀ d : Char, c.val.toNat = d.val.toNat → c = d := by
    intro d hd
    exact Char.ext (UInt32.ext hd)
  have hv : c.val.toNat = 48 ∨ c.val.toNat = 49 ∨ c.val.toNat = 50 ∨
      c.val.toNat = 51 ∨ c.val.toNat = 52 ∨ c.val.toNat = 53 ∨
      c.val.toNat = 54 ∨ c.val.toNat = 55 ∨ c.val.toNat = 56 ∨
      c.val.toNat = 57 := by omega
  rcases hv with h | h | h | h | h | h | h | h | h | h
  · rw [hc '0' (by rw [h]; rfl)]
    decide
  · rw [hc '1' (by rw [h]; rfl)]
    decide
  · rw [hc '2' (by rw [h]; rfl)]
    decide
  · rw [hc '3' (by rw [h]; rfl)]
    decide
  · rw [hc '4' (by rw [h]; rfl)]
    decide
  · rw [hc '5' (by rw [h]; rfl)]
    decide
  · rw [hc '6' (by rw [h]; rfl)]
    decide
  · rw [hc '7' (by rw [h]; rfl)]
    decide
  · rw [hc '8' (by rw [h]; rfl)]
    decide
  · rw [hc '9' (by rw [h]; rfl)]
    decide

/-- A nonempty all-digit string of at most three characters is one of the
enumerated bare numbers. -/
theorem mem_digitStrs3 (s : Str) (hne : s ≠ []) (hlen : s.length ≤ 3)
    (hd : ∀ c ∈ s, c.isDigit = true) : s ∈ digitStrs3 := by
  rcases s with _ | ⟨a, _ | ⟨b, _ | ⟨c, _ | ⟨d, t⟩⟩⟩⟩
  · exact absurd rfl hne
  · have ha := digit_mem_digitChars a (hd a (by simp))
    rw [digitStrs3]
    exact List.mem_append_left _ (List.mem_append_left _
      (List.mem_map.mpr ⟨a, ha, rfl⟩))
  · have ha := digit_mem_digitChars a (hd a (by simp))
    have hb := digit_mem_digitChars b (hd b (by simp))
    rw [digitStrs3]
    exact List.mem_append_left _ (List.mem_append_right _
      (List.mem_flatMap.mpr ⟨a, ha, List.mem_map.mpr ⟨b, hb, rfl⟩⟩))
  · have ha := digit_mem_digitChars a (hd a (by simp))
    have hb := digit_mem_digitChars b (hd b (by simp))
    have hcc := digit_mem_digitChars c (hd c (by simp))
    rw [digitStrs3]
    exact List.mem_append_right _
      (List.mem_flatMap.mpr ⟨a, ha, List.mem_flatMap.mpr
        ⟨b, hb, List.mem_map.mpr ⟨c, hcc, rfl⟩⟩⟩)
  · exact absurd hlen (by simp)

/-- On a line whose stripped text defeats every pattern, the parser either
skips (when stopped) or falls through to plain continuation handling. -/
theorem classify_bare_digits (st : PState) (l : Str)
    (hne : strip l ≠ []) (hsafe : bareDigitsSafe (strip l) = true) :
    classify st l = if st.stopped then Action.skipStopped
                    else Action.fallthru := by
  simp only [bareDigitsSafe, Bool.and_eq_true, Bool.not_eq_true',
    Option.isNone_iff_eq_none] at hsafe
  obtain ⟨⟨⟨⟨⟨⟨⟨⟨⟨⟨h1, h2⟩, h3⟩, h4⟩, h5⟩, h6⟩, h7⟩, h8⟩, h9⟩, h10⟩, h11⟩ :=
    hsafe
  have htry : ∀ b, tryOption (strip l) b = none := by
    intro b
    cases b
    · exact h7
    · exact h6
  cases hstop : st.stopped <;>
    simp [classify, classify.classifyTail, classify.classifyTail2, hne,
      h1, h2, h3, h4, h5, h8, h9, h10, h11, htry, hstop,
      Option.none_bind, Option.orElse]

/-- Claim C6: a visual line whose stripped text is a bare 1-3 digit number
with no following delimiter is never treated as a question header, and
inside a live (non-stopped) parse such a line is handled as a plain
continuation (the fall-through branch). -/
theorem c6_bare_number_not_header (st : PState) (l : Str)
    (hne : strip l ≠ []) (hlen : (strip l).length ≤ 3)
    (hd : ∀ c ∈ strip l, c.isDigit = true) :
    (∀ hk n b, classify st l ≠ .header hk n b) ∧
    (st.stopped = false → classify st l = .fallthru) := by
  have hmem := mem_digitStrs3 _ hne hlen hd
  have hsafe : bareDigitsSafe (strip l) = true :=
    List.all_eq_true.mp all_digitStrs3_safe _ hmem
  have hcl := classify_bare_digits st l hne hsafe
  constructor
  · intro hk n b hbad
    rw [hcl] at hbad
    split at hbad <;> cases hbad
  · intro hstop
    rw [hcl, hstop]
    simp

/-- Witness for C6: the bare line "42" inside a live question is a plain
continuation and never a header. -/
theorem c6_bare_number_not_header_witness :
    (∀ hk n b, classify liveSt "42".toList ≠ Action.header hk n b) ∧
    (liveSt.stopped = false →
      classify liveSt "42".toList = Action.fallthru) :=
  c6_bare_number_not_header liveSt "42".toList (by decide) (by decide)
    (by decide)

/-- Characters outside `0`-`9` are left unchanged by both digit maps. -/
theorem digit_maps_id (c : Char) (h : c.isDigit = false) :
    supDigit c = c ∧ subDigit c = c := by
  have h0 : ¬(c = '0') := by
    intro e
    subst e
    exact absurd h (by decide)
  have h1 : ¬(c = '1') := by
    intro e
    subst e
    exact absurd h (by decide)
  have h2 : ¬(c = '2') := by
    intro e
    subst e
    exact absurd h (by decide)
  have h3 : ¬(c = '3') := by
    intro e
    subst e
    exact absurd h (by decide)
  have h4 : ¬(c = '4') := by
    intro e
    subst e
    exact absurd h (by decide)
  have h5 : ¬(c = '5') := by
    intro e
    subst e
    exact absurd h (by decide)
  have h6 : ¬(c = '6') := by
    intro e
    subst e
    exact absurd h (by decide)
  have h7 : ¬(c = '7') := by
    intro e
    subst e
    exact absurd h (by decide)
  have h8 : ¬(c = '8') := by
    intro e
    subst e
    exact absurd h (by decide)
  have h9 : ¬(c = '9') := by
    intro e
    subst e
    exact absurd h (by decide)
  constructor
  · rw [supDigit, if_neg h0, if_neg h1, if_neg h2, if_neg h3, if_neg h4, if_neg h5, if_neg h6, if_neg h7, if_neg h8, if_neg h9]
  · rw [subDigit, if_neg h0, if_neg h1, if_neg h2, if_neg h3, if_neg h4, if_neg h5, if_neg h6, if_neg h7, if_neg h8, if_neg h9]

/-- Claim C8: a glyph row with positive average size below 80% of the
dominant size, with a preceding kept row, is folded into that row instead of
being emitted standalone: its text is appended with digits mapped to
superscript digits when the small row's centre lies strictly above the
preceding row's centre and to subscript digits otherwise, non-digits are
unchanged, and the preceding row's bottom is extended. -/
theorem c8_small_row_fold (dom : ℚ) (init : List VLine) (prev : VLine)
    (row : List CharRec)
    (hne : rowText0 dom row ≠ [])
    (hpos : 0 < rowAvgSize row)
    (hsmall : rowAvgSize row < dom * (80 / 100)) :
    processRow dom (init ++ [prev]) row =
      init ++ [{ prev with
        text := prev.text ++
          (if rowAvgTop row + (rowAvgBot row - rowAvgTop row) / 2 <
              (prev.top + prev.bottom) / 2
           then (normalizeMathChars (rowText0 dom row)).map supDigit
           else (normalizeMathChars (rowText0 dom row)).map subDigit),
        bottom := max prev.bottom (rowAvgBot row) }] ∧
    List.map supDigit "0123456789".toList = "⁰¹²³⁴⁵⁶⁷⁸⁹".toList ∧
    List.map subDigit "0123456789".toList = "₀₁₂₃₄₅₆₇₈₉".toList ∧
    (∀ c, c.isDigit = false → supDigit c = c ∧ subDigit c = c) := by
  refine ⟨?_, by decide, by decide, fun c h => digit_maps_id c h⟩
  unfold processRow
  rw [if_neg hne]
  dsimp only
  rw [if_pos (decide_eq_true ⟨hpos, hsmall⟩)]
  rw [List.getLast?_concat]
  dsimp only
  rw [List.dropLast_concat]

/-- Witness for C8: a size-5 glyph row under dominant size 10 folds into the
preceding row as a subscript (its centre lies below). -/
theorem c8_small_row_fold_witness :
    rowText0 10 c8row ≠ [] ∧
    (processRow 10 ([] ++ [c8prev]) c8row =
      [] ++ [{ c8prev with
        text := c8prev.text ++
          (if rowAvgTop c8row + (rowAvgBot c8row - rowAvgTop c8row) / 2 <
              (c8prev.top + c8prev.bottom) / 2
           then (normalizeMathChars (rowText0 10 c8row)).map supDigit
           else (normalizeMathChars (rowText0 10 c8row)).map subDigit),
        bottom := max c8prev.bottom (rowAvgBot c8row) }] ∧
      List.map supDigit "0123456789".toList = "⁰¹²³⁴⁵⁶⁷⁸⁹".toList ∧
      List.map subDigit "0123456789".toList = "₀₁₂₃₄₅₆₇₈₉".toList ∧
      (∀ c, c.isDigit = false → supDigit c = c ∧ subDigit c = c)) :=
  ⟨by decide, c8_small_row_fold 10 [] c8prev c8row (by decide) (by decide)
    (by decide)⟩

/-- The comma-join of nonempty parts is nonempty. -/
theorem joinComma_ne_nil : ∀ ps : List Str, ps ≠ [] → (∀ p ∈ ps, p ≠ []) →
    joinComma ps ≠ [] := by
  intro ps
  match ps with
  | [] => intro h _; exact absurd rfl h
  | [p] =>
    intro _ hp
    simpa [joinComma] using hp p (by simp)
  | p :: p2 :: t =>
    intro _ hp
    show p ++ [','] ++ joinComma (p2 :: t) ≠ []
    intro hbad
    simp at hbad

/-- Appending one more part to a nonempty join inserts one comma. -/
theorem joinComma_concat (p : Str) : ∀ ps : List Str, ps ≠ [] →
    joinComma (ps ++ [p]) = joinComma ps ++ [','] ++ p := by
  intro ps
  induction ps with
  | nil => intro h; exact absurd rfl h
  | cons a t ih =>
    intro _
    rcases t with _ | ⟨b, t2⟩
    · rfl
    · have hih := ih (by simp)
      show a ++ [','] ++ joinComma ((b :: t2) ++ [p]) =
        (a ++ [','] ++ joinComma (b :: t2)) ++ [','] ++ p
      rw [hih]
      simp

/-- A comma-free string splits into itself alone. -/
theorem splitComma_no_comma : ∀ p : Str, ',' ∉ p → splitComma p = [p] := by
  intro p
  induction p with
  | nil => intro _; rfl
  | cons c cs ih =>
    intro h
    rw [splitComma]
    rw [if_neg (by intro e; exact h (e ▸ List.mem_cons_self c cs))]
    rw [ih (fun hm => h (List.mem_cons_of_mem c hm))]

/-- Splitting past a comma-free head peels it off. -/
theorem splitComma_head : ∀ p rest : Str, ',' ∉ p →
    splitComma (p ++ ',' :: rest) = p :: splitComma rest := by
  intro p
  induction p with
  | nil =>
    intro rest _
    rw [List.nil_append, splitComma, if_pos rfl]
  | cons c cs ih =>
    intro rest h
    rw [List.cons_append, splitComma]
    rw [if_neg (by intro e; exact h (e ▸ List.mem_cons_self c cs))]
    rw [ih rest (fun hm => h (List.mem_cons_of_mem c hm))]

/-- Split inverts join on nonempty lists of comma-free parts. -/
theorem splitComma_joinComma : ∀ ps : List Str, ps ≠ [] →
    (∀ p ∈ ps, ',' ∉ p) → splitComma (joinComma ps) = ps := by
  intro ps
  induction ps with
  | nil => intro h _; exact absurd rfl h
  | cons a t ih =>
    intro _ hp
    rcases t with _ | ⟨b, t2⟩
    · exact splitComma_no_comma a (hp a (by simp))
    · show splitComma (a ++ [','] ++ joinComma (b :: t2)) = a :: b :: t2
      rw [List.append_assoc, List.singleton_append]
      rw [splitComma_head a _ (hp a (by simp))]
      rw [ih (by simp) (fun p hm => hp p (List.mem_cons_of_mem a hm))]

/-- Writing an option-text slot keeps a record image-free. -/
theorem zeroImg_setOpt (q : Question) (k : OptKey) (v : Option Str)
    (h : ZeroImg q) : ZeroImg (q.setOpt k v) := by
  cases k <;> exact h

/-- Writing an option-anchor slot keeps a record image-free. -/
theorem zeroImg_setOptY (q : Question) (k : OptKey) (v : Option ℚ)
    (h : ZeroImg q) : ZeroImg (q.setOptY k v) := by
  cases k <;> exact h

/-- Finalising the live question preserves the image-free invariant. -/
theorem finishQuestion_pinv (st : PState) (h : ParseImgInv st) :
    ParseImgInv (finishQuestion st) := by
  obtain ⟨hqs, hc⟩ := h
  unfold finishQuestion
  rcases hcur : st.current with _ | q
  · exact ⟨hqs, hc⟩
  · dsimp only
    constructor
    · intro q' hq'
      rw [List.mem_append] at hq'
      rcases hq' with h1 | h1
      · exact hqs q' h1
      · rw [List.mem_singleton] at h1
        subst h1
        exact hc q hcur
    · intro q' hq'
      cases hq'

/-- Bullet-option assignment keeps a record image-free. -/
theorem assignBullet_zeroImg (q : Question) (t : Str) (h : ZeroImg q) :
    ZeroImg (assignBulletOption q t).1 := by
  unfold assignBulletOption
  split
  · exact zeroImg_setOpt q _ _ h
  · exact h

/-- Every parser action preserves the image-free invariant. -/
theorem applyAction_pinv (st : PState) (vl : VLine) (a : Action)
    (h : ParseImgInv st) : ParseImgInv (applyAction st vl a) := by
  have hY : ParseImgInv { st with
      current := st.current.map fun q => { q with y_end := vl.bottom } } := by
    refine ⟨h.1, ?_⟩
    intro q hq
    rcases hcur : st.current with _ | q0
    · rw [hcur] at hq
      cases hq
    · rw [hcur, Option.map_some', Option.some.injEq] at hq
      exact hq ▸ show ZeroImg { q0 with y_end := vl.bottom } from h.2 q0 hcur
  cases a with
  | blank => exact h
  | skipStopped => exact h
  | noise => exact h
  | stopA =>
    have hf := finishQuestion_pinv st h
    exact ⟨hf.1, hf.2⟩
  | header hk num body =>
    have hf := finishQuestion_pinv _ hY
    refine ⟨hf.1, ?_⟩
    intro q hq
    have hq' : some (makeQuestion num body vl.top) = some q := hq
    injection hq' with hq2
    exact hq2 ▸ show ZeroImg (makeQuestion num body vl.top) from
      ⟨rfl, rfl, rfl, rfl, rfl, rfl⟩
  | option k text =>
    rcases hcur : st.current with _ | q0
    · simp only [applyAction, hcur, Option.map_none']
      exact ⟨h.1, fun q hq => by cases hq⟩
    · have hq0 : ZeroImg q0 := h.2 q0 hcur
      cases k with
      | bullet =>
        rcases hass : assignBulletOption { q0 with y_end := vl.bottom } text
          with ⟨q2, assigned⟩
        have hz2 : ZeroImg q2 := by
          have hzz := assignBullet_zeroImg { q0 with y_end := vl.bottom } text
            (show ZeroImg { q0 with y_end := vl.bottom } from hq0)
          rw [hass] at hzz
          exact hzz
        rcases assigned with _ | key
        · simp only [applyAction, hcur, Option.map_some', hass]
          refine ⟨h.1, ?_⟩
          intro q hq
          have hq' : some q2 = some q := hq
          injection hq' with e
          exact e ▸ hz2
        · simp only [applyAction, hcur, Option.map_some', hass]
          refine ⟨h.1, ?_⟩
          intro q hq
          have hq' : some (if (q2.getOptY key).isNone
              then q2.setOptY key (some vl.top) else q2) = some q := hq
          injection hq' with e
          refine e ▸ ?_
          split
          · exact zeroImg_setOptY q2 key _ hz2
          · exact hz2
      | slot key =>
        simp only [applyAction, hcur, Option.map_some']
        split
        · refine ⟨h.1, ?_⟩
          intro q hq
          have hq' : some (if (({ q0 with y_end := vl.bottom
              }.setOpt key (some text)).getOptY key).isNone
              then ({ q0 with y_end := vl.bottom }.setOpt key
                (some text)).setOptY key (some vl.top)
              else { q0 with y_end := vl.bottom }.setOpt key (some text)) =
              some q := hq
          injection hq' with e
          refine e ▸ ?_
          split
          · exact zeroImg_setOptY _ key _ (zeroImg_setOpt _ key _ hq0)
          · exact zeroImg_setOpt _ key _ hq0
        · refine ⟨h.1, ?_⟩
          intro q hq
          have hq' : some { q0 with y_end := vl.bottom } = some q := hq
          injection hq' with e
          exact e ▸ show ZeroImg { q0 with y_end := vl.bottom } from hq0
  | fallthru =>
    rcases hcur : st.current with _ | q0
    · simp only [applyAction, hcur, Option.map_none']
      exact ⟨h.1, fun q hq => by cases hq⟩
    · have hq0 : ZeroImg q0 := h.2 q0 hcur
      rcases hst : st.state with _ | _ | _
      · simp only [applyAction, hcur, Option.map_some', hst]
        refine ⟨h.1, ?_⟩
        intro q hq
        injection hq with e
        exact e ▸ show ZeroImg { q0 with y_end := vl.bottom } from hq0
      · simp only [applyAction, hcur, Option.map_some', hst]
        refine ⟨h.1, ?_⟩
        intro q hq
        injection hq with e
        refine e ▸ ?_
        exact show ZeroImg _ from hq0
      · rcases hlk : st.last_option_key with _ | k2
        · simp only [applyAction, hcur, Option.map_some', hst, hlk]
          refine ⟨h.1, ?_⟩
          intro q hq
          injection hq with e
          exact e ▸ show ZeroImg { q0 with y_end := vl.bottom } from hq0
        · simp only [applyAction, hcur, Option.map_some', hst, hlk]
          split
          · refine ⟨h.1, ?_⟩
            intro q hq
            injection hq with e
            exact e ▸ zeroImg_setOpt _ k2 _ hq0
          · split
            · refine ⟨h.1, ?_⟩
              intro q hq
              injection hq with e
              exact e ▸ zeroImg_setOpt _ k2 _ hq0
            · refine ⟨h.1, ?_⟩
              intro q hq
              injection hq with e
              exact e ▸ show ZeroImg { q0 with y_end := vl.bottom } from hq0

/-- The image-free invariant holds along the whole parse. -/
theorem foldl_step_pinv (l : List VLine) : ∀ st : PState, ParseImgInv st →
    ParseImgInv (l.foldl step st) := by
  induction l with
  | nil => exact fun st h => h
  | cons a t ih =>
    intro st h
    rw [List.foldl_cons]
    exact ih (step st a) (applyAction_pinv st a (classify st a.text) h)

/-- Every record emitted by the text parser carries no image data. -/
theorem parse_zeroImg (lines : List VLine) :
    ∀ q ∈ parse_questions_from_lines lines, ZeroImg q := by
  intro q hq
  have h0 : ParseImgInv initPState :=
    ⟨fun q hq => absurd hq (List.not_mem_nil q), fun q hq => by cases hq⟩
  have hf := finishQuestion_pinv _ (foldl_step_pinv lines initPState h0)
  exact hf.1 q hq

/-- A record with no image data satisfies the attachment invariant. -/
theorem attInv_of_zeroImg (q : Question) (h : ZeroImg q) : AttInv q :=
  Or.inl h

/-- Attaching one image with a good path preserves the attachment
invariant. -/
theorem attachOne_attInv (qs : List Question) (img : ImgRegion)
    (hgood : GoodPath img.path) (hall : ∀ q ∈ qs, AttInv q) :
    ∀ q ∈ attachOne qs img, AttInv q := by
  intro q hq
  unfold attachOne at hq
  dsimp only at hq
  rcases htgt : attachTarget qs ((img.top + img.bottom) / 2) with _ | i
  · rw [htgt] at hq
    exact hall q hq
  · rw [htgt] at hq
    dsimp only at hq
    rcases hget : qs.get? i with _ | q0
    · rw [hget] at hq
      exact hall q hq
    · rw [hget] at hq
      dsimp only at hq
      rcases List.mem_or_eq_of_mem_set hq with hmem | heq
      · exact hall q hmem
      · have hq0 : AttInv q0 := hall q0 (List.get?_mem hget)
        subst heq
        rcases hq0 with hz | ⟨hd1, ⟨ps, hpne, hpg, hpip⟩, ho1, ho2, ho3, ho4⟩
        · right
          refine ⟨rfl, ⟨[img.path], by simp, ?_, ?_⟩,
            hz.2.2.1, hz.2.2.2.1, hz.2.2.2.2.1, hz.2.2.2.2.2⟩
          · intro p hp
            rw [List.mem_singleton] at hp
            exact hp ▸ hgood
          · show (match q0.image_path with
              | none => some img.path
              | some s => some (s ++ [','] ++ img.path)) =
              some (joinComma [img.path])
            rw [hz.2.1]
            rfl
        · right
          refine ⟨rfl, ⟨ps ++ [img.path], by simp, ?_, ?_⟩, ho1, ho2, ho3, ho4⟩
          · intro p hp
            rcases List.mem_append.mp hp with h1 | h1
            · exact hpg p h1
            · rw [List.mem_singleton] at h1
              exact h1 ▸ hgood
          · show (match q0.image_path with
              | none => some img.path
              | some s => some (s ++ [','] ++ img.path)) =
              some (joinComma (ps ++ [img.path]))
            rw [hpip, joinComma_concat img.path ps hpne]

/-- The attachment fold preserves the attachment invariant. -/
theorem attach_foldl_attInv (imgs : List ImgRegion) :
    ∀ qs : List Question, (∀ img ∈ imgs, GoodPath img.path) →
      (∀ q ∈ qs, AttInv q) → ∀ q ∈ imgs.foldl attachOne qs, AttInv q := by
  induction imgs with
  | nil => exact fun qs _ hall => hall
  | cons img imgs ih =>
    intro qs hgood hall
    rw [List.foldl_cons]
    exact ih (attachOne qs img)
      (fun i hi => hgood i (List.mem_cons_of_mem img hi))
      (attachOne_attInv qs img (hgood img (by simp)) hall)

/-- Reading back an option-image slot after a write. -/
theorem getOptImage_setOptImage (q : Question) (k k' : OptKey)
    (v : Option Str) : (q.setOptImage k' v).getOptImage k =
      if k = k' then v else q.getOptImage k := by
  cases k <;> cases k' <;> simp [Question.getOptImage, Question.setOptImage]

/-- Writing an option-image slot keeps `has_diagram`. -/
theorem setOptImage_has_diagram (q : Question) (k : OptKey) (v : Option Str) :
    (q.setOptImage k v).has_diagram = q.has_diagram := by
  cases k <;> rfl

/-- Writing an option-image slot keeps `image_path`. -/
theorem setOptImage_image_path (q : Question) (k : OptKey) (v : Option Str) :
    (q.setOptImage k v).image_path = q.image_path := by
  cases k <;> rfl

/-- The per-path promotion loop: `has_diagram` and `image_path` are
untouched, the remaining paths stay good, and when it starts from any
leftover, pending path or filled slot it ends with a leftover path or a
filled slot. -/
theorem promotePathsAux_spec (ranges : List (OptKey × ℚ × ℚ))
    (pc : Str → Option (ℚ × ℚ)) :
    ∀ (ps : List Str) (q : Question) (rem : List Str),
      (∀ p ∈ ps, GoodPath p) → (∀ p ∈ rem, GoodPath p) →
      ((promotePathsAux ranges pc q rem ps).1.has_diagram = q.has_diagram ∧
       (promotePathsAux ranges pc q rem ps).1.image_path = q.image_path) ∧
      (∀ p ∈ (promotePathsAux ranges pc q rem ps).2, GoodPath p) ∧
      ((rem ≠ [] ∨ ps ≠ [] ∨ nonFalsySlot q) →
        (promotePathsAux ranges pc q rem ps).2 ≠ [] ∨
        nonFalsySlot (promotePathsAux ranges pc q rem ps).1) := by
  intro ps
  induction ps with
  | nil =>
    intro q rem hps hrem
    refine ⟨⟨rfl, rfl⟩, hrem, ?_⟩
    intro hd
    rcases hd with hd | hd | hd
    · exact Or.inl hd
    · exact absurd rfl hd
    · exact Or.inr hd
  | cons p ps ih =>
    intro q rem hps hrem
    have hpg : GoodPath p := hps p (by simp)
    have hps' : ∀ x ∈ ps, GoodPath x :=
      fun x hx => hps x (List.mem_cons_of_mem p hx)
    have hrem' : ∀ x ∈ rem ++ [p], GoodPath x := by
      intro x hx
      rcases List.mem_append.mp hx with h1 | h1
      · exact hrem x h1
      · rw [List.mem_singleton] at h1
        exact h1 ▸ hpg
    rw [promotePathsAux]
    rcases hpc : pc p with _ | ⟨t, b⟩
    · dsimp only
      obtain ⟨hA, hB, hC⟩ := ih q (rem ++ [p]) hps' hrem'
      refine ⟨hA, hB, ?_⟩
      intro _
      exact hC (Or.inl (by simp))
    · dsimp only
      split
      · rename_i r hfind
        split
        · obtain ⟨hA, hB, hC⟩ := ih (q.setOptImage r.1 (some p)) rem hps' hrem
          refine ⟨⟨?_, ?_⟩, hB, ?_⟩
          · rw [hA.1, setOptImage_has_diagram]
          · rw [hA.2, setOptImage_image_path]
          · intro _
            refine hC (Or.inr (Or.inr ?_))
            exact ⟨r.1, p, by rw [getOptImage_setOptImage]; simp, hpg.1⟩
        · obtain ⟨hA, hB, hC⟩ := ih q (rem ++ [p]) hps' hrem'
          refine ⟨hA, hB, ?_⟩
          intro _
          exact hC (Or.inl (by simp))
      · obtain ⟨hA, hB, hC⟩ := ih q (rem ++ [p]) hps' hrem'
        refine ⟨hA, hB, ?_⟩
        intro _
        exact hC (Or.inl (by simp))

/-- Promotion turns the attachment invariant into the final image
invariant. -/
theorem promoteQ_finInv (pc : Str → Option (ℚ × ℚ)) (q : Question)
    (h : AttInv q) : FinInv (promoteQ pc q) := by
  unfold promoteQ
  split
  · rcases h with hz | ⟨hd1, ⟨ps, hpne, hpg, hpip⟩, ho1, ho2, ho3, ho4⟩
    · exact Or.inl hz
    · right
      refine ⟨hd1, Or.inl ?_⟩
      rw [hpip]
      have hne := joinComma_ne_nil ps hpne (fun p hp => (hpg p hp).1)
      simp [pyFalsy, hne]
  · rename_i hcond
    rw [not_or] at hcond
    obtain ⟨hopt, hfal⟩ := hcond
    rcases h with hz | ⟨hd1, ⟨ps, hpne, hpg, hpip⟩, ho1, ho2, ho3, ho4⟩
    · exact absurd (by rw [hz.2.1]; rfl) hfal
    · have hpaths : splitComma (q.image_path.getD []) = ps := by
        rw [hpip]
        exact splitComma_joinComma ps hpne (fun p hp => (hpg p hp).2)
      dsimp only
      rw [hpaths]
      obtain ⟨hA, hB, hC⟩ := promotePathsAux_spec
        (mkRanges q.y_end (optYPresent q)) pc ps q []
        hpg (fun p hp => absurd hp (List.not_mem_nil p))
      rcases hpr : promotePathsAux (mkRanges q.y_end (optYPresent q)) pc q [] ps
        with ⟨q1, rem1⟩
      rw [hpr] at hA hB hC
      right
      constructor
      · show q1.has_diagram = 1
        rw [hA.1]
        exact hd1
      · rcases hC (Or.inr (Or.inl hpne)) with hrem | hslot
        · left
          show pyFalsy (if rem1 = [] then none else some (joinComma rem1)) =
            false
          rw [if_neg hrem]
          have hne := joinComma_ne_nil rem1 hrem (fun p hp => (hB p hp).1)
          simp [pyFalsy, hne]
        · obtain ⟨k, p, hk, hpne2⟩ := hslot
          cases k
          · right
            left
            show pyFalsy q1.option_a_image = false
            rw [show q1.option_a_image = some p from hk]
            simp [pyFalsy, hpne2]
          · right
            right
            left
            show pyFalsy q1.option_b_image = false
            rw [show q1.option_b_image = some p from hk]
            simp [pyFalsy, hpne2]
          · right
            right
            right
            left
            show pyFalsy q1.option_c_image = false
            rw [show q1.option_c_image = some p from hk]
            simp [pyFalsy, hpne2]
          · right
            right
            right
            right
            show pyFalsy q1.option_d_image = false
            rw [show q1.option_d_image = some p from hk]
            simp [pyFalsy, hpne2]

/-- Overwriting `question_image` preserves the final image invariant. -/
theorem finInv_question_image (q : Question) (v : Option Str) (h : FinInv q) :
    FinInv { q with question_image := v } := by
  rcases h with hz | hr
  · exact Or.inl ⟨hz.1, hz.2.1, hz.2.2.1, hz.2.2.2.1, hz.2.2.2.2.1,
      hz.2.2.2.2.2⟩
  · exact Or.inr hr

/-- The screenshot pass touches only `question_image` and so preserves the
final image invariant. -/
theorem screenshotPass_finInv (pm : List PageMeta) (qs : List Question)
    (hall : ∀ q ∈ qs, FinInv q) : ∀ q ∈ screenshotPass pm qs, FinInv q := by
  intro q hq
  unfold screenshotPass at hq
  rcases List.mem_iff_getElem.mp hq with ⟨i, hi, hgi⟩
  rw [List.getElem_mapIdx] at hgi
  have hilen : i < qs.length := by simpa using hi
  exact hgi ▸ finInv_question_image (qs[i]) _
    (hall _ (List.getElem_mem hilen))

/-- The final image invariant gives the amended equivalence. -/
theorem finInv_iff (q : Question) (h : FinInv q) :
    q.has_diagram = 1 ↔
      (pyFalsy q.image_path = false ∨ pyFalsy q.option_a_image = false ∨
       pyFalsy q.option_b_image = false ∨ pyFalsy q.option_c_image = false ∨
       pyFalsy q.option_d_image = false) := by
  rcases h with hz | ⟨hd1, hsome⟩
  · obtain ⟨h0, hip, ha, hb, hc, hd⟩ := hz
    constructor
    · intro h1
      rw [h0] at h1
      exact absurd h1 (by decide)
    · intro hr
      rcases hr with h1 | h1 | h1 | h1 | h1
      · rw [hip] at h1
        simp [pyFalsy] at h1
      · rw [ha] at h1
        simp [pyFalsy] at h1
      · rw [hb] at h1
        simp [pyFalsy] at h1
      · rw [hc] at h1
        simp [pyFalsy] at h1
      · rw [hd] at h1
        simp [pyFalsy] at h1
  · exact ⟨fun _ => hsome, fun _ => hd1⟩

/-- Amended claim C5: for every record emitted by the full pipeline, run
over images whose stored paths are nonempty and comma-free (as the source
produces them), `has_diagram = 1` exactly when the question-level
`image_path` or some per-option image slot is non-falsy; `question_image`
plays no part in the equivalence (see the counterexample). -/
theorem c5_amended_has_diagram_iff (lines : List VLine)
    (all_images : List ImgRegion) (page_meta : List PageMeta)
    (hgood : ∀ img ∈ all_images, GoodPath img.path)
    (q : Question)
    (hq : q ∈ parse_with_diagram_info lines all_images page_meta) :
    q.has_diagram = 1 ↔
      (pyFalsy q.image_path = false ∨ pyFalsy q.option_a_image = false ∨
       pyFalsy q.option_b_image = false ∨ pyFalsy q.option_c_image = false ∨
       pyFalsy q.option_d_image = false) := by
  have hparse := parse_zeroImg lines
  have hatt := attach_foldl_attInv all_images (parse_questions_from_lines lines)
    hgood (fun q2 hq2 => attInv_of_zeroImg q2 (hparse q2 hq2))
  have hfin : ∀ q2 ∈ (all_images.foldl attachOne
      (parse_questions_from_lines lines)).map
      (promoteQ (pathToCoords all_images)), FinInv q2 := by
    intro q2 hq2
    rcases List.mem_map.mp hq2 with ⟨q0, hq0, heq⟩
    exact heq ▸ promoteQ_finInv _ q0 (hatt q0 hq0)
  have hscr := screenshotPass_finInv page_meta _ hfin
  exact finInv_iff q (hscr q hq)

/-- Witness for amended C5: the first record of the demo pipeline run
satisfies the equivalence. -/
theorem c5_amended_witness :
    (∀ img ∈ oneImg, GoodPath img.path) ∧
    (c5rec.has_diagram = 1 ↔
      (pyFalsy c5rec.image_path = false ∨
       pyFalsy c5rec.option_a_image = false ∨
       pyFalsy c5rec.option_b_image = false ∨
       pyFalsy c5rec.option_c_image = false ∨
       pyFalsy c5rec.option_d_image = false)) :=
  ⟨by decide, c5_amended_has_diagram_iff twoQLines oneImg onePage (by decide)
    c5rec (by decide)⟩

end ClaimTheorems

end PdfMock
